import Mathlib

/-!
A verification development for the package-graph resolver of
`packages/compartment-mapper/src/node-modules.js`.

The JavaScript source is shallowly embedded as executable Lean functions:

* JS objects (string-keyed records) become association lists `List (κ × ν)`
  in insertion order; property assignment `obj[k] = v` becomes `jsInsert`
  (replace-in-place on an existing key, append otherwise), matching the JS
  object key-enumeration semantics.
* JS `Set` values become duplicate-free lists in insertion order (`jsAdd`).
* Package locations (URLs such as `file:///app/node_modules/x/`, always
  ending in a slash) become their path-segment lists, `Loc := List String`;
  URL arithmetic `resolveLocation('../', dir)` becomes `List.dropLast` and
  `resolveLocation('node_modules/<name>/', dir)` becomes
  `dir ++ ["node_modules", name]`.
* Async functions become pure functions: the memoized manifest reader
  becomes a function `Loc → Option Descriptor` (memoization only avoids
  duplicate I/O and does not change values), and the recursion of
  `graphPackage` / `gatherDependency` is made total with an explicit fuel
  parameter, exhaustion being reported as a distinguished error.
* Thrown exceptions become `Except Err` results with one constructor per
  distinct error site.

Collaborator modules that are not part of the sources here
(`policy.js`, `node-module-specifier.js`, `compartment-map.js`'s
`pathCompare`, `infer-exports.js`, `search.js`) are modelled from the
specification, each marked `Modelled from the spec:` at its definition.
-/

namespace NodeModules

/-- Lookup in an association list: the JS property read `obj[k]`, returning
`undefined` (`none`) when the key is absent.  When a key occurs twice the
first occurrence wins, which matches JS objects where a duplicate key is
unrepresentable (all lists built by `jsInsert` are duplicate-free). -/
def alookup {α β : Type _} [DecidableEq α] (k : α) : List (α × β) → Option β
  | [] => none
  | (k', v) :: rest => if k' = k then some v else alookup k rest

/-- JS property assignment `obj[k] = v`: replace the value in place if the
key is present, otherwise append the new key at the end, exactly as JS
object key-enumeration order behaves. -/
def jsInsert {α β : Type _} [DecidableEq α] (k : α) (v : β) : List (α × β) → List (α × β)
  | [] => [(k, v)]
  | (k', v') :: rest => if k' = k then (k, v) :: rest else (k', v') :: jsInsert k v rest

/-- JS `Set.prototype.add`: append the element unless it is already present. -/
def jsAdd {α : Type _} [DecidableEq α] (l : List α) (a : α) : List α :=
  if a ∈ l then l else l ++ [a]

/-- Auxiliary for `jsDedup`, carrying the set of elements already emitted. -/
def jsDedupAux {α : Type _} [DecidableEq α] (seen : List α) : List α → List α
  | [] => []
  | a :: rest => if a ∈ seen then jsDedupAux seen rest else a :: jsDedupAux (a :: seen) rest

/-- The JS `new Set(list)` spread back into a list: keep the first occurrence
of each element, in order.  Used to model iteration over a `Set` and over
the keys of a JS object given as a raw association list. -/
def jsDedup {α : Type _} [DecidableEq α] (l : List α) : List α :=
  jsDedupAux [] l

/-- Generic strict lexicographic comparison of lists, a shorter prefix
coming first. -/
def lexBy {α : Type _} (lt : α → α → Bool) : List α → List α → Bool
  | [], [] => false
  | [], _ :: _ => true
  | _ :: _, [] => false
  | a :: as, b :: bs =>
    if lt a b then true
    else if lt b a then false
    else lexBy lt as bs

/-- Character comparison by code point. -/
def charLtB (a b : Char) : Bool := decide (a.toNat < b.toNat)

/-- Strict string comparison used by `Array.prototype.sort` on keys: code
point order (this agrees with the JS code unit order on basic-plane
strings, which covers every package name and path in practice). -/
def strLtB (a b : String) : Bool := lexBy charLtB a.data b.data

/-- Reflexive string comparison derived from `strLtB`. -/
def strLeB (a b : String) : Bool := !(strLtB b a)

/-- Strict lexicographic comparison of locations, segment by segment. -/
def locLtB (a b : List String) : Bool := lexBy strLtB a b

/-- Reflexive location comparison derived from `locLtB`. -/
def locLeB (a b : List String) : Bool := !(locLtB b a)

/-- One step of insertion sort with respect to a boolean comparison. -/
def insBy {α : Type _} (le : α → α → Bool) (a : α) : List α → List α
  | [] => [a]
  | b :: rest => if le a b then a :: b :: rest else b :: insBy le a rest

/-- Insertion sort with respect to a boolean comparison; models
`Array.prototype.sort` (the comparison orders are total, so the result
agrees with any correct sort). -/
def sortBy {α : Type _} (le : α → α → Bool) (l : List α) : List α :=
  l.foldr (insBy le) []

/-- The sorted key iteration `keys(obj).sort()` for string-keyed objects. -/
def sortedKeys {β : Type _} (l : List (String × β)) : List String :=
  sortBy strLeB (jsDedup (l.map Prod.fst))

/-- The sorted key iteration `keys(graph).sort()` for location-keyed objects. -/
def sortedLocKeys {β : Type _} (l : List (List String × β)) : List (List String) :=
  sortBy locLeB (jsDedup (l.map Prod.fst))

/-- Package locations: the path segments of the directory URL (which always
ends in a slash), so `file:///app/node_modules/x/` is `["app", "node_modules", "x"]`. -/
abbrev Loc := List String

/-- A parsed `package.json` manifest, restricted to the fields that
`node-modules.js` reads.  `exportsPresent` stands for
`descriptor.exports !== undefined`, `moduleFieldPresent` for
`descriptor.module !== undefined`, and `peerDependenciesMeta` keeps only the
truthiness of each entry's `optional` flag. -/
structure Descriptor where
  name : String
  version : String
  dependencies : List (String × String)
  peerDependencies : List (String × String)
  peerDependenciesMeta : List (String × Bool)
  bundleDependencies : List (String × String)
  optionalDependencies : List (String × String)
  devDependencies : List (String × String)
  exportsPresent : Bool
  type : Option String
  moduleFieldPresent : Bool
  parsers : List (String × String)
  deriving DecidableEq, Repr

/-- A descriptor with every field empty, for building concrete examples. -/
def emptyDescriptor : Descriptor :=
  ⟨"", "", [], [], [], [], [], [], false, none, false, []⟩

/-- A graph node, as assembled by `graphPackage` (the `Node` typedef). -/
structure Node where
  name : String
  path : List String
  label : String
  explicitExports : Bool
  externalAliases : List (String × String)
  internalAliases : List (String × String)
  dependencyLocations : List (String × Loc)
  types : List (String × String)
  parsers : List (String × String)
  deriving DecidableEq, Repr

/-- The value first registered in the graph for a location (the empty object
`result = {}` that `graphPackage` registers before recursing; nothing reads
its fields before they are filled in, only its presence matters). -/
def stubNode : Node := ⟨"", [], "", false, [], [], [], [], []⟩

/-- The graph: a location-keyed object of nodes. -/
abbrev Graph := List (Loc × Node)

/-- Distinguished results for each `throw` site of the source, plus
`fuelExhausted` for the explicit fuel of the embedded recursion. -/
inductive Err where
  | fuelExhausted
  | cannotFindDependency (name : String) (loc : Loc)
  | cannotFindCommonDependency (name : String) (loc : Loc)
  | cannotFindDependencyFromCommon (name : String) (loc : Loc)
  | cannotFindEntryPackageJson (loc : Loc)
  | invalidParserLanguages (loc : Loc)
  | cannotInferParsers (loc : Loc)
  | falsyPackagePolicy
  | missingGraphNode (loc : Loc)
  | reservedNameCollision
  deriving DecidableEq, Repr

/-- Modelled from the spec: the policy collaborator exposes
`resolveFragment(identity) → fragment | undefined` and
`isDependencyAllowed(dependencyIdentity, consumerFragment) → bool`
(`policy.js` is not among the sources).  A package identity is its
entry-ness, name and logical path; a dependency identity is its name and
logical path. -/
structure Policy (F : Type _) where
  resolveFragment : Bool → String → List String → Option F
  isDependencyAllowed : String → List String → F → Bool

/-- Modelled from the spec: `getPolicyForPackage` resolves the policy
fragment for a package identity, `undefined` when no policy is active. -/
def getPolicyForPackage {F : Type _} (policy : Option (Policy F))
    (isEntry : Bool) (name : String) (path : List String) : Option F :=
  policy.bind fun pol => pol.resolveFragment isEntry name path

/-- Modelled from the spec: `dependencyAllowedByPolicy` asks the consumer's
resolved fragment whether the dependency identity may be imported. -/
def dependencyAllowedByPolicy {F : Type _} (pol : Policy F)
    (name : String) (path : List String) (frag : F) : Bool :=
  pol.isDependencyAllowed name path frag

/-- Modelled from the spec: the reserved attenuators compartment name
(`policy.js` is not among the sources; only the name's reservedness
matters, not its spelling). -/
def attenuatorsName : String := "<ATTENUATORS>"

/-- The reserved attenuators graph key, as a location value. -/
def attenuatorsCompartment : Loc := [attenuatorsName]

/-- Modelled from the spec: `join` of `node-module-specifier.js` composes
the full import specifier `<dependency-name>/<exported-subpath>`, with the
bare export `"."` mapping to the dependency name itself. -/
def joinSpecifier (dependencyName : String) (exportPath : String) : String :=
  if exportPath = "." then dependencyName
  else if exportPath.startsWith "./" then dependencyName ++ exportPath.drop 1
  else dependencyName ++ "/" ++ exportPath

/-- The URL pathname of a directory location: `/seg0/seg1/.../`, always
ending in a slash because directory locations end in a slash. -/
def pathnameChars (segs : List String) : List Char :=
  '/' :: segs.foldr (fun s acc => s.data ++ '/' :: acc) []

/-- The source's `basename`: the part of the URL pathname after the last
slash (`pathname.slice(pathname.lastIndexOf('/') + 1)`). -/
def basenameOfPathname (cs : List Char) : String :=
  String.mk ((cs.reverse.takeWhile (fun c => c ≠ '/')).reverse)

/-- The `basename(location)` call of `findPackage`, applied to a directory
given by its segments. -/
def dirBasename (segs : List String) : String :=
  basenameOfPathname (pathnameChars segs)

/-- The manifest reader: `readDescriptor` composed over `maybeRead` and
JSON parsing, already memoized.  Absence of a manifest is `none`, never an
error. -/
abbrev ReadDescriptorFn := Loc → Option Descriptor

/-- The canonicalize capability of the read powers. -/
abbrev CanonicalFn := Loc → Loc

/-- Core loop of `findPackage`, walking from the requesting directory
upward.  The directory is held in reversed segment order so that ascending
(`resolveLocation('../', directory)`) is structural (`tail`).  Each
iteration probes `<directory>/node_modules/<name>/` (canonicalized), then
ascends; at the root (`parent === directory`) it gives up with `none`.
After ascending, the source compares `basename(directory)` against
`'node_modules'` and, inside that branch, computes the grandparent into
`directory`, compares it against `parent`, and then assigns
`directory = parent` again — all of which is transcribed literally here. -/
def findPackageFrom (readDescriptor : ReadDescriptorFn) (canonical : CanonicalFn)
    (name : String) : List String → Option (Loc × Descriptor)
  | [] =>
    -- probing at the filesystem root; ascending from the root does not
    -- change the directory, so a failed probe here is the final one
    let packageLocation := canonical ((name :: "node_modules" :: ([] : List String)).reverse)
    match readDescriptor packageLocation with
    | some packageDescriptor => some (packageLocation, packageDescriptor)
    | none => none
  | seg :: rparent =>
    let packageLocation := canonical ((name :: "node_modules" :: seg :: rparent).reverse)
    match readDescriptor packageLocation with
    | some packageDescriptor => some (packageLocation, packageDescriptor)
    | none =>
      if dirBasename rparent.reverse = "node_modules" then
        -- directory = resolveLocation('../', directory); if (parent === directory) return undefined; directory = parent
        if rparent.reverse = (rparent.reverse).dropLast then none
        else findPackageFrom readDescriptor canonical name rparent
      else findPackageFrom readDescriptor canonical name rparent

/-- The source's `findPackage(readDescriptor, canonical, directory, name)`. -/
def findPackage (readDescriptor : ReadDescriptorFn) (canonical : CanonicalFn)
    (directory : Loc) (name : String) : Option (Loc × Descriptor) :=
  findPackageFrom readDescriptor canonical name directory.reverse

/-- Object spread `{...base, ...extra}` / `Object.assign(base, extra)`:
entries of `extra` override entries of `base`, keeping first-insertion key
order. -/
def jsAssign {β : Type _} (base extra : List (String × β)) : List (String × β) :=
  extra.foldl (fun acc p => jsInsert p.1 p.2 acc) base

/-- The four language-for-extension tables plus the recognized language set
(a `LanguageOptions` value as produced by `makeLanguageOptions`). -/
structure LanguageOptions where
  commonjsLanguageForExtension : List (String × String)
  moduleLanguageForExtension : List (String × String)
  workspaceCommonjsLanguageForExtension : List (String × String)
  workspaceModuleLanguageForExtension : List (String × String)
  languages : List String
  deriving DecidableEq, Repr

/-- The source's `inferParsers`: chooses the language-for-extension table
from the manifest's `type`/`module` fields, overlaid with the manifest's own
`parsers` table after validating its values against the recognized language
set.  Workspace tables are used when the location is not under a
`node_modules` directory (`location.includes('/node_modules/')`, which for
segment lists means containing a `node_modules` segment). -/
def inferParsers (descriptor : Descriptor) (location : Loc)
    (languageOptions : LanguageOptions) : Except Err (List (String × String)) :=
  let underNodeModules : Bool := "node_modules" ∈ location
  let moduleLanguageForExtension :=
    if underNodeModules then languageOptions.moduleLanguageForExtension
    else languageOptions.workspaceModuleLanguageForExtension
  let commonjsLanguageForExtension :=
    if underNodeModules then languageOptions.commonjsLanguageForExtension
    else languageOptions.workspaceCommonjsLanguageForExtension
  if descriptor.parsers.any (fun p => !(languageOptions.languages.contains p.2)) then
    .error (.invalidParserLanguages location)
  else if descriptor.type = some "module" ∨ descriptor.moduleFieldPresent then
    .ok (jsAssign moduleLanguageForExtension descriptor.parsers)
  else if descriptor.type = some "commonjs" then
    .ok (jsAssign commonjsLanguageForExtension descriptor.parsers)
  else if descriptor.type ≠ none then
    .error (.cannotInferParsers location)
  else
    .ok (jsAssign commonjsLanguageForExtension descriptor.parsers)

/-- Modelled from the spec: the result of the alias/export inference
collaborator (`infer-exports.js` is not among the sources): external
aliases, internal aliases, and per-path language assignments. -/
structure InferredAliases where
  externalAliases : List (String × String)
  internalAliases : List (String × String)
  types : List (String × String)

/-- Modelled from the spec: `inferExportsAndAliases(manifest, …)`,
parameterized by the active condition set. -/
abbrev InferExportsFn := Descriptor → List String → InferredAliases

/-- Modelled from the spec: the upward manifest search used by
`readDescriptorUpwards` (`search.js` is not among the sources), giving the
manifest governing a module path within a package, if any. -/
abbrev SearchDescriptorFn := String → Loc → Option Descriptor

/-- Modelled from the spec: `pathCompare` orders logical paths element-wise
lexicographically over the name sequence, ties broken by the shorter
(prefix) path. -/
def pathLtList (a b : List String) : Bool := lexBy strLtB a b

/-- Modelled from the spec: a candidate path is preferred over the current
best when the best is still `undefined` or the candidate is strictly less. -/
def pathLt (candidate : List String) : Option (List String) → Bool
  | none => true
  | some best => pathLtList candidate best

/-- One administrator-injected common dependency: its version spec from the
entry manifest and the alias under which it is exposed. -/
structure CommonDescriptor where
  spec : String
  aliasName : String
  deriving DecidableEq, Repr

/-- The read-only context threaded through the graph build. -/
structure Ctx where
  readDescriptor : ReadDescriptorFn
  canonical : CanonicalFn
  inferExportsAndAliases : InferExportsFn
  searchDescriptor : SearchDescriptorFn
  conditions : List String
  languageOptions : LanguageOptions
  strict : Bool
  commonDependencyDescriptors : List (String × CommonDescriptor)

/-- The mutable state of the graph build: the graph object and the
preferred-logical-path map. -/
structure GraphState where
  graph : Graph
  preferred : List (Loc × List String)
  deriving DecidableEq, Repr

/-- Sequentialized `await Promise.all(children)`: run one gather step per
dependency name, threading the graph state and the package's
`dependencyLocations` table (the visible effects of the concurrent original
commute, so the sequential order yields the same final state). -/
def childrenLoop
    (step : GraphState → List (String × Loc) → String → Except Err (GraphState × List (String × Loc))) :
    GraphState → List (String × Loc) → List String → Except Err (GraphState × List (String × Loc))
  | st, dependencyLocations, [] => .ok (st, dependencyLocations)
  | st, dependencyLocations, name :: rest => do
    let (st', dependencyLocations') ← step st dependencyLocations name
    childrenLoop step st' dependencyLocations' rest

/-- The body of `gatherDependency`, with the mutually recursive call to
`graphPackage` supplied as `recurse`: find the dependency by ascending
search; a missing dependency is silently skipped when optional or when not
in strict mode and is otherwise a fatal error naming the dependency and the
requester; a found dependency is recorded in the requester's
`dependencyLocations`, the preferred-logical-path map is improved if the
candidate path is lexicographically less, and the dependency package is
graphed recursively. -/
def gatherDependencyStep
    (recurse : GraphState → String → Loc → Descriptor → List String → Except Err GraphState)
    (ctx : Ctx) (st : GraphState) (dependencyLocations : List (String × Loc))
    (packageLocation : Loc) (name : String) (childLogicalPath : List String)
    (optional : Bool) : Except Err (GraphState × List (String × Loc)) :=
  match findPackage ctx.readDescriptor ctx.canonical packageLocation name with
  | none =>
    -- allow the dependency to be missing if optional
    if optional || !ctx.strict then .ok (st, dependencyLocations)
    else .error (.cannotFindDependency name packageLocation)
  | some (dependencyLocation, dependencyDescriptor) =>
    let dependencyLocations' := jsInsert name dependencyLocation dependencyLocations
    let theCurrentBest := alookup dependencyLocation st.preferred
    let st' :=
      if pathLt childLogicalPath theCurrentBest then
        { st with preferred := jsInsert dependencyLocation childLogicalPath st.preferred }
      else st
    (recurse st' name dependencyLocation dependencyDescriptor childLogicalPath).map
      (fun st'' => (st'', dependencyLocations'))

/-- The merged dependency table of a package, in priority order:
administrator-injected common dependencies, `dependencies`,
`peerDependencies`, `bundleDependencies`, `optionalDependencies`, and (for
the entry package in dev mode) `devDependencies`; later tables override
earlier ones on name collision. -/
def allDependenciesOf (commonDescs : List (String × CommonDescriptor))
    (d : Descriptor) (dev : Bool) : List (String × String) :=
  let acc := jsAssign (jsAssign (jsAssign (jsAssign
    (jsAssign [] (commonDescs.map (fun p => (p.1, p.2.spec))))
    d.dependencies) d.peerDependencies) d.bundleDependencies) d.optionalDependencies
  if dev then jsAssign acc d.devDependencies else acc

/-- The set of dependency names marked optional: peer dependencies flagged
optional in `peerDependenciesMeta`, plus all `optionalDependencies`. -/
def optionalsOf (d : Descriptor) : List String :=
  (d.peerDependenciesMeta.filter (fun p => p.2)).map Prod.fst
    ++ d.optionalDependencies.map Prod.fst

/-- The post-pass over external alias targets: any target whose governing
manifest (found by upward search) declares `type: "module"` is recorded as
`mjs` in the node's per-path `types` table. -/
def refineTypes (searchDescriptor : SearchDescriptorFn) (packageLocation : Loc)
    (types : List (String × String)) (items : List String) : List (String × String) :=
  items.foldl
    (fun ts item =>
      match searchDescriptor item packageLocation with
      | some d => if d.type = some "module" then jsInsert item "mjs" ts else ts
      | none => ts)
    types

/-- The common-dependency alias rewrite: each administrator-injected common
dependency must have been resolved for this package (fatal otherwise), and
its alias is pointed at the resolved location. -/
def rewriteCommonAliases (packageLocation : Loc) :
    List (String × CommonDescriptor) → List (String × Loc) → Except Err (List (String × Loc))
  | [], dependencyLocations => .ok dependencyLocations
  | (name, cd) :: rest, dependencyLocations =>
    match alookup name dependencyLocations with
    | none => .error (.cannotFindCommonDependency name packageLocation)
    | some targetLocation =>
      rewriteCommonAliases packageLocation rest (jsInsert cd.aliasName targetLocation dependencyLocations)

/-- The internal-alias rewrite over the sorted internal alias specifiers:
aliases whose specifier or target is relative are left alone; otherwise the
target must itself be a resolved dependency name (fatal otherwise) and the
specifier is pointed at that dependency's location. -/
def rewriteInternalAliases (packageLocation : Loc) (internalAliases : List (String × String)) :
    List String → List (String × Loc) → Except Err (List (String × Loc))
  | [], dependencyLocations => .ok dependencyLocations
  | specifier :: rest, dependencyLocations =>
    match alookup specifier internalAliases with
    | none =>
      -- unreachable: the iterated specifiers are the table's own keys
      rewriteInternalAliases packageLocation internalAliases rest dependencyLocations
    | some target =>
      if specifier.startsWith "./" || specifier = "." then
        rewriteInternalAliases packageLocation internalAliases rest dependencyLocations
      else if target.startsWith "./" || target = "." then
        rewriteInternalAliases packageLocation internalAliases rest dependencyLocations
      else
        match alookup target dependencyLocations with
        | none => .error (.cannotFindDependency target packageLocation)
        | some targetLocation =>
          rewriteInternalAliases packageLocation internalAliases rest
            (jsInsert specifier targetLocation dependencyLocations)

/-- The node label: `${name}${version ? `-v${version}` : ''}`. -/
def labelOf (name version : String) : String :=
  if version = "" then name else name ++ "-v" ++ version

/-- The source's `graphPackage`, total via an explicit fuel parameter that
decreases at each nested package visit (`Err.fuelExhausted` when it runs
out; a sufficient bound is proved below).  A location already present in
the graph returns immediately; otherwise the empty node is registered first
(the cycle guard), the merged dependency names are gathered in sorted
order, aliases and parsers are inferred, the common-dependency and
internal-alias rewrites are applied, and the node's fields are filled in. -/
def graphPackage (ctx : Ctx) :
    Nat → GraphState → String → Loc → Descriptor → Bool → List String → Except Err GraphState
  | 0, _, _, _, _, _, _ => .error .fuelExhausted
  | fuel + 1, st, name, packageLocation, packageDescriptor, dev, logicalPath =>
    if (alookup packageLocation st.graph).isSome then
      -- returning here breaks dependency cycles: no re-entry, no duplicate node
      .ok st
    else
      -- (a manifest name that disagrees with the discovery name only logs a
      -- console warning and does not affect the result)
      let st1 : GraphState := { st with graph := st.graph ++ [(packageLocation, stubNode)] }
      let allDependencies := allDependenciesOf ctx.commonDependencyDescriptors packageDescriptor dev
      let optionals := optionalsOf packageDescriptor
      let inferred := ctx.inferExportsAndAliases packageDescriptor ctx.conditions
      do
      let parsers ← inferParsers packageDescriptor packageLocation ctx.languageOptions
      let (st2, dependencyLocations) ←
        childrenLoop
          (fun stc dl depName =>
            gatherDependencyStep
              (fun stg n l d p => graphPackage ctx fuel stg n l d false p)
              ctx stc dl packageLocation depName (logicalPath ++ [depName])
              (optionals.contains depName))
          st1 [] (sortedKeys allDependencies)
      let types := refineTypes ctx.searchDescriptor packageLocation inferred.types
        (inferred.externalAliases.map Prod.snd)
      let dependencyLocations2 ← rewriteCommonAliases packageLocation
        ctx.commonDependencyDescriptors dependencyLocations
      let dependencyLocations3 ← rewriteInternalAliases packageLocation
        inferred.internalAliases (sortedKeys inferred.internalAliases) dependencyLocations2
      let node : Node :=
        { name := name, path := logicalPath,
          label := labelOf name packageDescriptor.version,
          explicitExports := packageDescriptor.exportsPresent,
          externalAliases := inferred.externalAliases,
          internalAliases := inferred.internalAliases,
          dependencyLocations := dependencyLocations3,
          types := types, parsers := parsers }
      .ok { st2 with graph := jsInsert packageLocation node st2.graph }

/-- The source's `gatherDependency`: `gatherDependencyStep` with the
recursive call going to `graphPackage` at the given fuel. -/
def gatherDependency (ctx : Ctx) (fuel : Nat) (st : GraphState)
    (dependencyLocations : List (String × Loc)) (packageLocation : Loc)
    (name : String) (childLogicalPath : List String) (optional : Bool) :
    Except Err (GraphState × List (String × Loc)) :=
  gatherDependencyStep (fun stg n l d p => graphPackage ctx fuel stg n l d false p)
    ctx st dependencyLocations packageLocation name childLogicalPath optional

/-- The condition set after `graphPackages` adds the always-present tags to
its local copy: `import`, `default`, and the product tag `endo`. -/
def conditionsWithDefaults (conditions : List String) : List String :=
  jsAdd (jsAdd (jsAdd (jsDedup conditions) "import") "default") "endo"

/-- Resolution of the administrator-injected common dependencies against
the entry manifest's `dependencies` table: each must be declared there
(fatal otherwise), and is recorded under its real name with its spec and
alias. -/
def mkCommonDescriptors (packageLocation : Loc)
    (packageDescriptorDependencies : List (String × String)) :
    List (String × String) → List (String × CommonDescriptor)
    → Except Err (List (String × CommonDescriptor))
  | [], acc => .ok acc
  | (aliasName, dependencyName) :: rest, acc =>
    match alookup dependencyName packageDescriptorDependencies with
    | none => .error (.cannotFindDependencyFromCommon dependencyName packageLocation)
    | some spec =>
      mkCommonDescriptors packageLocation packageDescriptorDependencies rest
        (jsInsert dependencyName ⟨spec, aliasName⟩ acc)

/-- The source's `graphPackages`: seed the memoized reader with the main
package descriptor when given, add the default conditions to a local copy
of the condition set, fail when the entry has no manifest, resolve the
common-dependency descriptors, and build the graph from the entry. -/
def graphPackages (fuel : Nat) (maybeReadDescriptor : ReadDescriptorFn)
    (canonical : CanonicalFn) (inferExportsAndAliases : InferExportsFn)
    (searchDescriptor : SearchDescriptorFn) (packageLocation : Loc)
    (conditions : List String) (mainPackageDescriptor : Option Descriptor)
    (dev : Bool) (commonDependencies : List (String × String))
    (languageOptions : LanguageOptions) (strict : Bool) : Except Err Graph :=
  let readDescriptor : ReadDescriptorFn := fun l =>
    match mainPackageDescriptor with
    | some d => if l = packageLocation then some d else maybeReadDescriptor l
    | none => maybeReadDescriptor l
  match readDescriptor packageLocation with
  | none => .error (.cannotFindEntryPackageJson packageLocation)
  | some packageDescriptor => do
    let commonDescs ← mkCommonDescriptors packageLocation
      packageDescriptor.dependencies commonDependencies []
    let ctx : Ctx :=
      { readDescriptor := readDescriptor, canonical := canonical,
        inferExportsAndAliases := inferExportsAndAliases,
        searchDescriptor := searchDescriptor,
        conditions := conditionsWithDefaults conditions,
        languageOptions := languageOptions, strict := strict,
        commonDependencyDescriptors := commonDescs }
    let st ← graphPackage ctx fuel ⟨[], []⟩ packageDescriptor.name
      packageLocation packageDescriptor dev []
    .ok st.graph

/-- A module descriptor: the exporting compartment and the module's full
specifier from the exporting package. -/
structure ModuleDescriptor where
  compartment : Loc
  module : String
  deriving DecidableEq, Repr

/-- A scope descriptor: the compartment backing an open scope. -/
structure ScopeDescriptor where
  compartment : Loc
  deriving DecidableEq, Repr

/-- A compartment descriptor as emitted by `translateGraph`; `policy` is the
resolved package policy fragment and `compartments` the set (insertion-order
list) of compartment locations this one may import from. -/
structure CompartmentDescriptor (F : Type _) where
  label : String
  name : String
  path : List String
  location : Loc
  modules : List (String × ModuleDescriptor)
  scopes : List (String × ScopeDescriptor)
  parsers : List (String × String)
  types : List (String × String)
  policy : Option F
  compartments : List Loc
  deriving DecidableEq, Repr

/-- The compartment map descriptor: the echoed tags, the entry compartment
and module, and the compartment table. -/
structure CompartmentMap (F : Type _) where
  tags : List String
  entryCompartment : Loc
  entryModule : String
  compartments : List (Loc × CompartmentDescriptor F)
  deriving DecidableEq, Repr

/-- The modules-and-scopes accumulator of one compartment's construction. -/
structure DigestAcc where
  modules : List (String × ModuleDescriptor)
  scopes : List (String × ScopeDescriptor)
  deriving DecidableEq, Repr

/-- The guard of the module-descriptor insertion:
`!policy || (packagePolicy && dependencyAllowedByPolicy({name, path}, packagePolicy))`. -/
def policyAllows {F : Type _} (policy : Option (Policy F)) (packagePolicy : Option F)
    (target : Node) : Bool :=
  match policy, packagePolicy with
  | none, _ => true
  | some pol, some frag => dependencyAllowedByPolicy pol target.name target.path frag
  | some _, none => false

/-- The source's `digestExternalAliases(dependencyName, packageLocation)`:
destructure the target's graph node (a missing node is the JS `TypeError`
from destructuring `undefined`), walk its external aliases in sorted order
and, when no policy is active or the consumer's resolved fragment allows
the target package, record a module descriptor for
`join(dependencyName, exportPath)` into the target compartment; when the
target has no explicit exports, additionally record an open-scope entry for
the dependency name — unconditionally, the policy guard covers only the
enumerated module descriptors. -/
def digestExternalAliases {F : Type _} (policy : Option (Policy F)) (g : Graph)
    (packagePolicy : Option F) (acc : DigestAcc) (dependencyName : String)
    (packageLocation : Loc) : Except Err DigestAcc :=
  match alookup packageLocation g with
  | none => .error (.missingGraphNode packageLocation)
  | some target =>
    let allowed : Bool := policyAllows policy packagePolicy target
    let modules :=
      (sortedKeys target.externalAliases).foldl
        (fun ms exportPath =>
          match alookup exportPath target.externalAliases with
          | none => ms
          | some targetPath =>
            if allowed then
              jsInsert (joinSpecifier dependencyName exportPath)
                ⟨packageLocation, targetPath⟩ ms
            else ms)
        acc.modules
    -- if the exports field is not present, then all modules must be accessible
    let scopes :=
      if !target.explicitExports then
        jsInsert dependencyName (⟨packageLocation⟩ : ScopeDescriptor) acc.scopes
      else acc.scopes
    .ok ⟨modules, scopes⟩

/-- The dependency loop of one compartment's construction: digest each
dependency name in sorted order and add its location to the compartment
name set. -/
def digestDependencies {F : Type _} (policy : Option (Policy F)) (g : Graph)
    (packagePolicy : Option F) (dependencyLocations : List (String × Loc)) :
    DigestAcc → List Loc → List String → Except Err (DigestAcc × List Loc)
  | acc, compartmentNames, [] => .ok (acc, compartmentNames)
  | acc, compartmentNames, dependencyName :: rest =>
    match alookup dependencyName dependencyLocations with
    | none =>
      -- unreachable: the iterated names are the table's own keys
      digestDependencies policy g packagePolicy dependencyLocations acc compartmentNames rest
    | some dependencyLocation => do
      let acc' ← digestExternalAliases policy g packagePolicy acc dependencyName dependencyLocation
      digestDependencies policy g packagePolicy dependencyLocations acc'
        (jsAdd compartmentNames dependencyLocation) rest

/-- The internal-alias loop of one compartment's construction: aliases with
a relative target become module descriptors into the compartment itself. -/
def digestInternalAliases (dependeeLocation : Loc) (internalAliases : List (String × String))
    (modules : List (String × ModuleDescriptor)) : List String → List (String × ModuleDescriptor)
  | [] => modules
  | modulePath :: rest =>
    match alookup modulePath internalAliases with
    | none => digestInternalAliases dependeeLocation internalAliases modules rest
    | some facetTarget =>
      if facetTarget.startsWith "./" || facetTarget = "." then
        digestInternalAliases dependeeLocation internalAliases
          (jsInsert modulePath ⟨dependeeLocation, facetTarget⟩ modules) rest
      else
        digestInternalAliases dependeeLocation internalAliases modules rest

/-- One iteration of `translateGraph`'s main loop: resolve the package
policy (a supplied policy must resolve to a fragment for every package),
digest the package's own aliases (the reflexive entry), every dependency's
aliases, and the relative internal aliases, and emit the compartment
descriptor. -/
def buildCompartment {F : Type _} (policy : Option (Policy F)) (g : Graph)
    (entryPackageLocation : Loc) (dependeeLocation : Loc) (node : Node) :
    Except Err (CompartmentDescriptor F) :=
  let packagePolicy := getPolicyForPackage policy
    (decide (dependeeLocation = entryPackageLocation)) node.name node.path
  if policy.isSome && packagePolicy.isNone then
    -- this should never happen
    .error .falsyPackagePolicy
  else do
    -- Support reflexive package aliases
    let acc1 ← digestExternalAliases policy g packagePolicy ⟨[], []⟩ node.name dependeeLocation
    -- Support external package aliases
    let (acc2, compartmentNames) ← digestDependencies policy g packagePolicy
      node.dependencyLocations acc1 [] (sortedKeys node.dependencyLocations)
    -- digest own internal aliases
    let modules := digestInternalAliases dependeeLocation node.internalAliases
      acc2.modules (sortedKeys node.internalAliases)
    .ok { label := node.label, name := node.name, path := node.path,
          location := dependeeLocation, modules := modules, scopes := acc2.scopes,
          parsers := node.parsers, types := node.types,
          policy := packagePolicy, compartments := compartmentNames }

/-- The main loop of `translateGraph` over the sorted graph locations. -/
def buildCompartments {F : Type _} (policy : Option (Policy F)) (g : Graph)
    (entryPackageLocation : Loc) :
    List Loc → Except Err (List (Loc × CompartmentDescriptor F))
  | [] => .ok []
  | dependeeLocation :: rest =>
    match alookup dependeeLocation g with
    | none =>
      -- unreachable: the iterated locations are the graph's own keys
      buildCompartments policy g entryPackageLocation rest
    | some node => do
      let c ← buildCompartment policy g entryPackageLocation dependeeLocation node
      let cs ← buildCompartments policy g entryPackageLocation rest
      .ok ((dependeeLocation, c) :: cs)

/-- The source's `translateGraph`: one compartment per graph node, iterated
in sorted location order, plus the echoed tags and the entry record. -/
def translateGraph {F : Type _} (entryPackageLocation : Loc) (entryModuleSpecifier : String)
    (g : Graph) (conditions : List String) (policy : Option (Policy F)) :
    Except Err (CompartmentMap F) := do
  let cs ← buildCompartments policy g entryPackageLocation (sortedLocKeys g)
  .ok { tags := conditions, entryCompartment := entryPackageLocation,
        entryModule := entryModuleSpecifier, compartments := cs }

/-- The attenuators step of `compartmentMapForNodeModules`: with a policy
supplied, the reserved compartment name must be free (fatal otherwise;
`assertPolicy` itself is schema validation, out of scope) and a clone of
the entry package's node with cleared external aliases and the reserved
name and label is added to the graph. -/
def addAttenuators {F : Type _} (policy : Option (Policy F)) (g : Graph)
    (packageLocation : Loc) : Except Err Graph :=
  match policy with
  | none => .ok g
  | some _ =>
    if (alookup attenuatorsCompartment g).isSome then .error .reservedNameCollision
    else
      -- {...graph[packageLocation], externalAliases: {}, label, name}
      -- (a spread of undefined would contribute no fields; the entry node is
      -- always present after a successful graph build)
      let entryNode := match alookup packageLocation g with
        | some n => n
        | none => stubNode
      .ok (g ++ [(attenuatorsCompartment,
        { entryNode with
          externalAliases := [],
          label := attenuatorsName,
          name := attenuatorsName })])

/-- The tail of `compartmentMapForNodeModules` after the graph build: the
attenuators step followed by `translateGraph`. -/
def attenuateAndTranslate {F : Type _} (policy : Option (Policy F)) (g : Graph)
    (packageLocation : Loc) (moduleSpecifier : String) (conditions : List String) :
    Except Err (CompartmentMap F) := do
  let g' ← addAttenuators policy g packageLocation
  translateGraph packageLocation moduleSpecifier g' conditions policy

/-- The options bag of `compartmentMapForNodeModules`. -/
structure MapOptions (F : Type _) where
  dev : Bool
  commonDependencies : List (String × String)
  policy : Option (Policy F)
  strict : Bool
  languageForExtension : List (String × String)
  moduleLanguageForExtension : List (String × String)
  commonjsLanguageForExtension : List (String × String)
  workspaceLanguageForExtension : List (String × String)
  workspaceModuleLanguageForExtension : List (String × String)
  workspaceCommonjsLanguageForExtension : List (String × String)
  languages : List String

/-- An options bag with every option at its default. -/
def defaultMapOptions (F : Type _) : MapOptions F :=
  ⟨false, [], none, false, [], [], [], [], [], [], []⟩

/-- The fixed `defaultLanguageForExtension` table. -/
def defaultLanguageForExtension : List (String × String) :=
  [("mjs", "mjs"), ("cjs", "cjs"), ("json", "json"), ("text", "text"), ("bytes", "bytes")]

/-- The source's `makeLanguageOptions`: overlay the option tables over the
defaults and collect the recognized language set. -/
def makeLanguageOptions {F : Type _} (options : MapOptions F) : LanguageOptions :=
  let commonjsLanguageForExtension :=
    jsAssign (jsAssign (jsAssign defaultLanguageForExtension options.languageForExtension)
      [("js", "cjs")]) options.commonjsLanguageForExtension
  let moduleLanguageForExtension :=
    jsAssign (jsAssign (jsAssign defaultLanguageForExtension options.languageForExtension)
      [("js", "mjs")]) options.moduleLanguageForExtension
  let workspaceCommonjsLanguageForExtension :=
    jsAssign (jsAssign commonjsLanguageForExtension options.workspaceLanguageForExtension)
      options.workspaceCommonjsLanguageForExtension
  let workspaceModuleLanguageForExtension :=
    jsAssign (jsAssign moduleLanguageForExtension options.workspaceLanguageForExtension)
      options.workspaceModuleLanguageForExtension
  { commonjsLanguageForExtension := commonjsLanguageForExtension,
    moduleLanguageForExtension := moduleLanguageForExtension,
    workspaceCommonjsLanguageForExtension := workspaceCommonjsLanguageForExtension,
    workspaceModuleLanguageForExtension := workspaceModuleLanguageForExtension,
    languages := jsDedup
      (moduleLanguageForExtension.map Prod.snd
        ++ commonjsLanguageForExtension.map Prod.snd
        ++ workspaceModuleLanguageForExtension.map Prod.snd
        ++ workspaceCommonjsLanguageForExtension.map Prod.snd
        ++ options.languages) }

/-- The source's `compartmentMapForNodeModules`: build the graph (dev mode
also follows from the `development` condition), apply the attenuators step
when a policy is supplied, and translate.  The conditions passed on to the
translator are the caller's conditions (`graphPackages` adds the default
tags only to its own local copy). -/
def compartmentMapForNodeModules {F : Type _} (fuel : Nat)
    (maybeReadDescriptor : ReadDescriptorFn) (canonical : CanonicalFn)
    (inferExportsAndAliases : InferExportsFn) (searchDescriptor : SearchDescriptorFn)
    (packageLocation : Loc) (conditionsOption : List String)
    (packageDescriptor : Option Descriptor) (moduleSpecifier : String)
    (options : MapOptions F) : Except Err (CompartmentMap F) := do
  let languageOptions := makeLanguageOptions options
  let conditions := jsDedup conditionsOption
  let g ← graphPackages fuel maybeReadDescriptor canonical inferExportsAndAliases
    searchDescriptor packageLocation conditions packageDescriptor
    (options.dev || conditions.contains "development")
    options.commonDependencies languageOptions options.strict
  attenuateAndTranslate options.policy g packageLocation moduleSpecifier conditions

/-! ### Association list and set lemmas -/

theorem alookup_isSome_iff {α β : Type _} [DecidableEq α] {k : α} :
    ∀ {l : List (α × β)}, (alookup k l).isSome ↔ k ∈ l.map Prod.fst
  | [] => by simp [alookup]
  | (k', v) :: rest => by
    by_cases h : k' = k
    · subst h; simp [alookup]
    · simp only [alookup, if_neg h, List.map_cons, List.mem_cons]
      rw [alookup_isSome_iff (l := rest)]
      simp [Ne.symm h]

theorem alookup_eq_none_iff {α β : Type _} [DecidableEq α] {k : α} {l : List (α × β)} :
    alookup k l = none ↔ k ∉ l.map Prod.fst := by
  rw [← alookup_isSome_iff (k := k) (l := l)]
  cases alookup k l <;> simp

theorem mem_of_alookup_eq_some {α β : Type _} [DecidableEq α] {k : α} {v : β} :
    ∀ {l : List (α × β)}, alookup k l = some v → (k, v) ∈ l
  | [], h => by simp [alookup] at h
  | (k', v') :: rest, h => by
    by_cases hk : k' = k
    · subst hk
      simp only [alookup, if_true, eq_self_iff_true] at h
      simp only [Option.some.injEq] at h
      subst h; exact List.mem_cons_self _ _
    · simp only [alookup, if_neg hk] at h
      exact List.mem_cons_of_mem _ (mem_of_alookup_eq_some h)

theorem alookup_jsInsert_self {α β : Type _} [DecidableEq α] (k : α) (v : β) :
    ∀ (l : List (α × β)), alookup k (jsInsert k v l) = some v
  | [] => by simp [jsInsert, alookup]
  | (k', v') :: rest => by
    by_cases h : k' = k
    · simp [jsInsert, if_pos h, alookup]
    · simp [jsInsert, if_neg h, alookup, if_neg h, alookup_jsInsert_self k v rest]

theorem alookup_jsInsert_ne {α β : Type _} [DecidableEq α] {k k' : α} (v : β)
    (h : k' ≠ k) : ∀ (l : List (α × β)), alookup k (jsInsert k' v l) = alookup k l
  | [] => by simp [jsInsert, alookup, if_neg h]
  | (k'', v'') :: rest => by
    by_cases h2 : k'' = k'
    · subst h2
      simp [jsInsert, alookup, if_neg h]
    · by_cases h3 : k'' = k
      · simp [jsInsert, if_neg h2, alookup, if_pos h3]
      · simp [jsInsert, if_neg h2, alookup, if_neg h3, alookup_jsInsert_ne v h rest]

theorem mem_jsInsert {α β : Type _} [DecidableEq α] {k : α} {v : β} {p : α × β} :
    ∀ {l : List (α × β)}, p ∈ jsInsert k v l → p = (k, v) ∨ p ∈ l
  | [], h => by simpa [jsInsert] using h
  | (k', v') :: rest, h => by
    by_cases h2 : k' = k
    · simp only [jsInsert, if_pos h2, List.mem_cons] at h
      rcases h with h | h
      · exact Or.inl h
      · exact Or.inr (List.mem_cons_of_mem _ h)
    · simp only [jsInsert, if_neg h2, List.mem_cons] at h
      rcases h with h | h
      · exact Or.inr (by simp [h])
      · rcases mem_jsInsert h with h | h
        · exact Or.inl h
        · exact Or.inr (List.mem_cons_of_mem _ h)

theorem map_fst_jsInsert_of_mem {α β : Type _} [DecidableEq α] {k : α} (v : β) :
    ∀ {l : List (α × β)}, k ∈ l.map Prod.fst →
      (jsInsert k v l).map Prod.fst = l.map Prod.fst
  | [], h => by simp at h
  | (k', v') :: rest, h => by
    by_cases h2 : k' = k
    · simp [jsInsert, if_pos h2, h2]
    · simp only [List.map_cons, List.mem_cons] at h
      rcases h with h | h
      · exact absurd h.symm h2
      · simp [jsInsert, if_neg h2, map_fst_jsInsert_of_mem v h]

theorem map_fst_jsInsert_of_not_mem {α β : Type _} [DecidableEq α] {k : α} (v : β) :
    ∀ {l : List (α × β)}, k ∉ l.map Prod.fst →
      (jsInsert k v l).map Prod.fst = l.map Prod.fst ++ [k]
  | [], _ => by simp [jsInsert]
  | (k', v') :: rest, h => by
    simp only [List.map_cons, List.mem_cons] at h
    push_neg at h
    have hne : k' ≠ k := fun hh => h.1 hh.symm
    simp [jsInsert, if_neg hne, map_fst_jsInsert_of_not_mem v h.2]

theorem nodup_map_fst_jsInsert {α β : Type _} [DecidableEq α] {k : α} (v : β)
    {l : List (α × β)} (h : (l.map Prod.fst).Nodup) :
    ((jsInsert k v l).map Prod.fst).Nodup := by
  by_cases hm : k ∈ l.map Prod.fst
  · rwa [map_fst_jsInsert_of_mem v hm]
  · rw [map_fst_jsInsert_of_not_mem v hm]
    refine List.Nodup.append h (List.nodup_singleton k) ?_
    intro a ha hak
    simp only [List.mem_singleton] at hak
    subst hak
    exact hm ha

theorem mem_jsAdd {α : Type _} [DecidableEq α] {l : List α} {a b : α} :
    b ∈ jsAdd l a ↔ b ∈ l ∨ b = a := by
  by_cases h : a ∈ l
  · simp only [jsAdd, if_pos h]
    constructor
    · exact Or.inl
    · rintro (hb | rfl) <;> [exact hb; exact h]
  · simp [jsAdd, if_neg h]

theorem subset_jsAdd {α : Type _} [DecidableEq α] (l : List α) (a : α) :
    ∀ x, x ∈ l → x ∈ jsAdd l a := fun _ hb => mem_jsAdd.2 (Or.inl hb)

theorem mem_jsDedupAux {α : Type _} [DecidableEq α] {a : α} :
    ∀ (seen l : List α), a ∈ jsDedupAux seen l ↔ a ∈ l ∧ a ∉ seen
  | seen, [] => by simp [jsDedupAux]
  | seen, b :: rest => by
    by_cases h : b ∈ seen
    · rw [jsDedupAux, if_pos h, mem_jsDedupAux seen rest]
      constructor
      · rintro ⟨h1, h2⟩
        exact ⟨List.mem_cons_of_mem _ h1, h2⟩
      · rintro ⟨h1, h2⟩
        rcases List.mem_cons.1 h1 with rfl | h1
        · exact absurd h h2
        · exact ⟨h1, h2⟩
    · rw [jsDedupAux, if_neg h]
      simp only [List.mem_cons, mem_jsDedupAux (b :: seen) rest]
      constructor
      · rintro (rfl | ⟨h1, h2⟩)
        · exact ⟨Or.inl rfl, h⟩
        · exact ⟨Or.inr h1, fun has => h2 (Or.inr has)⟩
      · rintro ⟨rfl | h1, h2⟩
        · exact Or.inl rfl
        · by_cases hab : a = b
          · exact Or.inl hab
          · exact Or.inr ⟨h1, fun hc => (by rcases hc with hc | hc; exact hab hc; exact h2 hc : False)⟩

theorem mem_jsDedup {α : Type _} [DecidableEq α] {a : α} {l : List α} :
    a ∈ jsDedup l ↔ a ∈ l := by
  rw [jsDedup, mem_jsDedupAux [] l]; simp

theorem nodup_jsDedupAux {α : Type _} [DecidableEq α] :
    ∀ (seen l : List α), (jsDedupAux seen l).Nodup
  | seen, [] => by simp [jsDedupAux]
  | seen, b :: rest => by
    by_cases h : b ∈ seen
    · rw [jsDedupAux, if_pos h]
      exact nodup_jsDedupAux seen rest
    · rw [jsDedupAux, if_neg h]
      refine List.Nodup.cons (fun hb => ?_) (nodup_jsDedupAux (b :: seen) rest)
      exact ((mem_jsDedupAux _ _).1 hb).2 (List.mem_cons_self _ _)

theorem nodup_jsDedup {α : Type _} [DecidableEq α] (l : List α) : (jsDedup l).Nodup :=
  nodup_jsDedupAux [] l

/-! ### Order facts for the comparison functions -/

theorem lexBy_irrefl {α : Type _} (lt : α → α → Bool) (hirr : ∀ a, lt a a = false) :
    ∀ l, lexBy lt l l = false
  | [] => rfl
  | a :: as => by simp [lexBy, hirr a, lexBy_irrefl lt hirr as]

theorem lexBy_trans {α : Type _} (lt : α → α → Bool)
    (htr : ∀ a b c, lt a b = true → lt b c = true → lt a c = true)
    (hconn : ∀ a b, lt a b = false → lt b a = false → a = b) :
    ∀ l1 l2 l3, lexBy lt l1 l2 = true → lexBy lt l2 l3 = true → lexBy lt l1 l3 = true
  | l1, [], _, h1, _ => by cases l1 <;> simp [lexBy] at h1
  | _, _ :: _, [], _, h2 => by simp [lexBy] at h2
  | [], _ :: _, _ :: _, _, _ => by simp [lexBy]
  | a :: as, b :: bs, c :: cs, h1, h2 => by
    by_cases hab : lt a b = true
    · by_cases hbc : lt b c = true
      · simp [lexBy, htr a b c hab hbc]
      · by_cases hcb : lt c b = true
        · simp [lexBy, hbc, hcb] at h2
        · have hbceq := hconn b c (by simpa using hbc) (by simpa using hcb)
          subst hbceq
          simp [lexBy, hab]
    · by_cases hba : lt b a = true
      · simp [lexBy, hab, hba] at h1
      · have habeq := hconn a b (by simpa using hab) (by simpa using hba)
        subst habeq
        simp only [lexBy, hab, if_false] at h1
        by_cases hac : lt a c = true
        · simp [lexBy, hac]
        · by_cases hca : lt c a = true
          · simp [lexBy, hac, hca] at h2
          · have haceq := hconn a c (by simpa using hac) (by simpa using hca)
            subst haceq
            simp only [lexBy, hac, if_false] at h2 ⊢
            exact lexBy_trans lt htr hconn as bs cs h1 h2

theorem lexBy_conn {α : Type _} (lt : α → α → Bool)
    (hconn : ∀ a b, lt a b = false → lt b a = false → a = b) :
    ∀ l1 l2, lexBy lt l1 l2 = false → lexBy lt l2 l1 = false → l1 = l2
  | [], [], _, _ => rfl
  | [], _ :: _, h1, _ => by simp [lexBy] at h1
  | _ :: _, [], _, h2 => by simp [lexBy] at h2
  | a :: as, b :: bs, h1, h2 => by
    by_cases hab : lt a b = true
    · simp [lexBy, hab] at h1
    · by_cases hba : lt b a = true
      · simp [lexBy, hba] at h2
      · have habeq := hconn a b (by simpa using hab) (by simpa using hba)
        subst habeq
        simp only [lexBy, hab, hba, if_false] at h1 h2
        rw [lexBy_conn lt hconn as bs h1 h2]

theorem charLtB_irrefl (a : Char) : charLtB a a = false := by simp [charLtB]

theorem charLtB_trans (a b c : Char) (h1 : charLtB a b = true) (h2 : charLtB b c = true) :
    charLtB a c = true := by
  simp only [charLtB, decide_eq_true_eq] at h1 h2 ⊢
  exact Nat.lt_trans h1 h2

theorem charLtB_conn (a b : Char) (h1 : charLtB a b = false) (h2 : charLtB b a = false) :
    a = b := by
  simp only [charLtB, decide_eq_false_iff_not, Nat.not_lt] at h1 h2
  exact Char.ext (UInt32.ext (Nat.le_antisymm h2 h1))

theorem strLtB_irrefl (a : String) : strLtB a a = false :=
  lexBy_irrefl charLtB charLtB_irrefl a.data

theorem strLtB_trans (a b c : String) (h1 : strLtB a b = true) (h2 : strLtB b c = true) :
    strLtB a c = true :=
  lexBy_trans charLtB charLtB_trans charLtB_conn a.data b.data c.data h1 h2

theorem strLtB_conn (a b : String) (h1 : strLtB a b = false) (h2 : strLtB b a = false) :
    a = b :=
  String.ext (lexBy_conn charLtB charLtB_conn a.data b.data h1 h2)

theorem locLtB_irrefl (a : List String) : locLtB a a = false :=
  lexBy_irrefl strLtB strLtB_irrefl a

theorem locLtB_trans (a b c : List String) (h1 : locLtB a b = true) (h2 : locLtB b c = true) :
    locLtB a c = true :=
  lexBy_trans strLtB strLtB_trans strLtB_conn a b c h1 h2

theorem locLtB_conn (a b : List String) (h1 : locLtB a b = false) (h2 : locLtB b a = false) :
    a = b :=
  lexBy_conn strLtB strLtB_conn a b h1 h2

/-! ### Sorting lemmas -/

theorem insBy_perm {α : Type _} (le : α → α → Bool) (a : α) :
    ∀ l, List.Perm (insBy le a l) (a :: l)
  | [] => List.Perm.refl _
  | b :: rest => by
    by_cases h : le a b = true
    · simp [insBy, h]
    · simp only [insBy, if_neg h]
      exact List.Perm.trans (List.Perm.cons b (insBy_perm le a rest)) (List.Perm.swap a b rest)

theorem sortBy_perm {α : Type _} (le : α → α → Bool) :
    ∀ l, List.Perm (sortBy le l) l
  | [] => List.Perm.refl _
  | a :: rest =>
    List.Perm.trans (insBy_perm le a (sortBy le rest)) (List.Perm.cons a (sortBy_perm le rest))

theorem mem_sortBy {α : Type _} (le : α → α → Bool) {a : α} {l : List α} :
    a ∈ sortBy le l ↔ a ∈ l :=
  (sortBy_perm le l).mem_iff

theorem nodup_sortBy {α : Type _} (le : α → α → Bool) {l : List α} (h : l.Nodup) :
    (sortBy le l).Nodup :=
  ((sortBy_perm le l).nodup_iff).2 h

theorem insBy_sorted {α : Type _} (le : α → α → Bool)
    (htot : ∀ a b, le a b = true ∨ le b a = true)
    (htr : ∀ a b c, le a b = true → le b c = true → le a c = true) (a : α) :
    ∀ {l}, List.Sorted (fun x y => le x y = true) l →
      List.Sorted (fun x y => le x y = true) (insBy le a l)
  | [], _ => by simp [insBy, List.Sorted]
  | b :: rest, hs => by
    rcases List.sorted_cons.1 hs with ⟨hb, hrest⟩
    by_cases h : le a b = true
    · simp only [insBy, if_pos h]
      exact List.sorted_cons.2 ⟨by
        intro x hx
        rcases List.mem_cons.1 hx with rfl | hx
        · exact h
        · exact htr a b x h (hb x hx), hs⟩
    · simp only [insBy, if_neg h]
      have hba : le b a = true := (htot a b).resolve_left h
      refine List.sorted_cons.2 ⟨?_, insBy_sorted le htot htr a hrest⟩
      intro x hx
      rcases (insBy_perm le a rest).mem_iff.1 hx with hx2
      rcases List.mem_cons.1 hx2 with rfl | hx2
      · exact hba
      · exact hb x hx2

theorem sortBy_sorted {α : Type _} (le : α → α → Bool)
    (htot : ∀ a b, le a b = true ∨ le b a = true)
    (htr : ∀ a b c, le a b = true → le b c = true → le a c = true) :
    ∀ l, List.Sorted (fun x y => le x y = true) (sortBy le l)
  | [] => by simp [sortBy, List.Sorted]
  | a :: rest => insBy_sorted le htot htr a (sortBy_sorted le htot htr rest)

theorem sortBy_eq_of_perm {α : Type _} (le : α → α → Bool)
    (htot : ∀ a b, le a b = true ∨ le b a = true)
    (htr : ∀ a b c, le a b = true → le b c = true → le a c = true)
    (hanti : ∀ a b, le a b = true → le b a = true → a = b)
    {l₁ l₂ : List α} (h : List.Perm l₁ l₂) : sortBy le l₁ = sortBy le l₂ := by
  letI : IsAntisymm α (fun x y => le x y = true) := ⟨hanti⟩
  exact List.eq_of_perm_of_sorted
    (((sortBy_perm le l₁).trans h).trans (sortBy_perm le l₂).symm)
    (sortBy_sorted le htot htr l₁) (sortBy_sorted le htot htr l₂)

theorem strLeB_total (a b : String) : strLeB a b = true ∨ strLeB b a = true := by
  by_cases h1 : strLtB b a = true
  · right
    simp only [strLeB, Bool.not_eq_true']
    by_cases h2 : strLtB a b = true
    · have := strLtB_trans a b a h2 h1
      simp [strLtB_irrefl] at this
    · simpa using h2
  · left
    simp only [strLeB, Bool.not_eq_true']
    simpa using h1

theorem strLeB_trans (a b c : String) (h1 : strLeB a b = true) (h2 : strLeB b c = true) :
    strLeB a c = true := by
  simp only [strLeB, Bool.not_eq_true'] at h1 h2 ⊢
  by_cases hca : strLtB c a = true
  · exfalso
    by_cases hab : strLtB a b = true
    · have := strLtB_trans c a b hca hab
      simp [h2] at this
    · have hab2 := strLtB_conn a b (by simpa using hab) h1
      subst hab2
      simp [hca] at h2
  · simpa using hca

theorem strLeB_antisymm (a b : String) (h1 : strLeB a b = true) (h2 : strLeB b a = true) :
    a = b := by
  simp only [strLeB, Bool.not_eq_true'] at h1 h2
  exact strLtB_conn a b h2 h1

theorem locLeB_total (a b : List String) : locLeB a b = true ∨ locLeB b a = true := by
  by_cases h1 : locLtB b a = true
  · right
    simp only [locLeB, Bool.not_eq_true']
    by_cases h2 : locLtB a b = true
    · have := locLtB_trans a b a h2 h1
      simp [locLtB_irrefl] at this
    · simpa using h2
  · left
    simp only [locLeB, Bool.not_eq_true']
    simpa using h1

theorem locLeB_trans (a b c : List String) (h1 : locLeB a b = true) (h2 : locLeB b c = true) :
    locLeB a c = true := by
  simp only [locLeB, Bool.not_eq_true'] at h1 h2 ⊢
  by_cases hca : locLtB c a = true
  · exfalso
    by_cases hab : locLtB a b = true
    · have := locLtB_trans c a b hca hab
      simp [h2] at this
    · have hab2 := locLtB_conn a b (by simpa using hab) h1
      subst hab2
      simp [hca] at h2
  · simpa using hca

theorem locLeB_antisymm (a b : List String) (h1 : locLeB a b = true) (h2 : locLeB b a = true) :
    a = b := by
  simp only [locLeB, Bool.not_eq_true'] at h1 h2
  exact locLtB_conn a b h2 h1

/-! ### Lemmas about `findPackage` -/

/-- The URL pathname of a directory always ends in a slash. -/
theorem pathnameChars_ends_slash (segs : List String) :
    ∃ cs, pathnameChars segs = cs ++ ['/'] := by
  rw [pathnameChars]
  induction segs with
  | nil => exact ⟨[], rfl⟩
  | cons s rest ih =>
    rcases ih with ⟨cs, hcs⟩
    simp only [List.foldr_cons]
    rcases cs with _ | ⟨c0, cs'⟩
    · -- pathname of rest was just "/": its fold is empty
      have hrest : rest.foldr (fun s acc => s.data ++ '/' :: acc) [] = [] := by
        have := hcs
        simpa using List.cons.inj this |>.2
      rw [hrest]
      exact ⟨'/' :: s.data, by simp⟩
    · have hrest := (List.cons.inj hcs).2
      rw [hrest]
      exact ⟨'/' :: s.data ++ '/' :: cs', by simp⟩

/-- The `basename` of a char sequence ending in a slash is empty. -/
theorem basenameOfPathname_of_ends_slash (cs : List Char) :
    basenameOfPathname (cs ++ ['/']) = "" := by
  rw [basenameOfPathname]
  simp [List.takeWhile]

/-- Key fact about the reserved-subdirectory check: because directory
locations end in a slash, the URL `basename` of any directory is the empty
string, so the comparison against `'node_modules'` in `findPackage` never
succeeds: the skip-an-extra-level branch is unreachable. -/
theorem dirBasename_eq_empty (segs : List String) : dirBasename segs = "" := by
  rcases pathnameChars_ends_slash segs with ⟨cs, hcs⟩
  rw [dirBasename, hcs, basenameOfPathname_of_ends_slash]

/-- A found package is one whose (canonicalized) location has a manifest. -/
theorem findPackageFrom_found {readDescriptor : ReadDescriptorFn} {canonical : CanonicalFn}
    {name : String} :
    ∀ {rdir : List String} {loc : Loc} {d : Descriptor},
      findPackageFrom readDescriptor canonical name rdir = some (loc, d) →
      readDescriptor loc = some d
  | [], loc, d, h => by
    rw [findPackageFrom] at h
    rcases hrd : readDescriptor (canonical ((name :: "node_modules" :: ([] : List String)).reverse)) with _ | d'
    · rw [hrd] at h; exact absurd h (by simp)
    · rw [hrd] at h
      simp only [Option.some.injEq, Prod.mk.injEq] at h
      rw [← h.1, hrd, h.2]
  | seg :: rparent, loc, d, h => by
    rw [findPackageFrom] at h
    rcases hrd : readDescriptor (canonical ((name :: "node_modules" :: seg :: rparent).reverse)) with _ | d'
    · rw [hrd] at h
      rw [dirBasename_eq_empty] at h
      simp only [show ("" = "node_modules") = False by simp, if_false] at h
      exact findPackageFrom_found h
    · rw [hrd] at h
      simp only [Option.some.injEq, Prod.mk.injEq] at h
      rw [← h.1, hrd, h.2]

/-- A found package via `findPackage` has a manifest at its location. -/
theorem findPackage_found {readDescriptor : ReadDescriptorFn} {canonical : CanonicalFn}
    {directory : Loc} {name : String} {loc : Loc} {d : Descriptor}
    (h : findPackage readDescriptor canonical directory name = some (loc, d)) :
    readDescriptor loc = some d :=
  findPackageFrom_found h

/-- Claim C5: the claim states that `findPackage` probes
`<ancestor>/node_modules/<name>/` at successive ancestors, skips an extra
level whenever the directory reached by ascending has basename
`node_modules` (never probing a reserved subdirectory nested directly
inside another reserved-subdirectory level), and returns undefined at the
filesystem root.  The code does not implement the skip: the basename of a
trailing-slash directory URL is always the empty string
(`dirBasename_eq_empty`), so the guard never fires, and even inside the
branch the computed grandparent is discarded by the final
`directory = parent` assignment.  This theorem evaluates the embedded
`findPackage` at a failing input: with the requester at
`file:///a/node_modules/p/` asking for `"q"` and a manifest present only at
the nested reserved location `file:///a/node_modules/node_modules/q/`, the
search probes that nested reserved location and returns it, which the claim
says never happens.  (The second conjunct shows the termination half of the
claim, reaching the root and returning undefined, does hold.) -/
theorem claim_C5 :
    (findPackage
        (fun l => if l = ["a", "node_modules", "node_modules", "q"]
          then some emptyDescriptor else none)
        id ["a", "node_modules", "p"] "q"
      = some (["a", "node_modules", "node_modules", "q"], emptyDescriptor))
    ∧ findPackage (fun _ => none) id ["a", "node_modules", "p"] "q" = none :=
  ⟨rfl, rfl⟩

/-! ### Shared fixtures for concrete examples -/

/-- An inference collaborator that reports no aliases and no types. -/
def emptyInfer : InferExportsFn := fun _ _ => ⟨[], [], []⟩

/-- An upward manifest search that finds nothing. -/
def noSearch : SearchDescriptorFn := fun _ _ => none

/-- A context over a given reader with no aliases, no common dependencies
and default language options. -/
def plainCtx (readDescriptor : ReadDescriptorFn) (strict : Bool) : Ctx :=
  { readDescriptor := readDescriptor, canonical := id,
    inferExportsAndAliases := emptyInfer, searchDescriptor := noSearch,
    conditions := conditionsWithDefaults [],
    languageOptions := makeLanguageOptions (defaultMapOptions Unit),
    strict := strict, commonDependencyDescriptors := [] }

/-- Claim C3: when the Package Finder cannot locate a dependency `name`
declared by the package at `packageLocation`, `gatherDependency` returns
the error naming `name` and `packageLocation` exactly when `strict` is set
and the dependency is not optional, and in every other case returns
normally with the graph state and the requester's dependency-location table
unchanged (no entry for the dependency, no node added).  In particular a
missing optional dependency raises no error even in strict mode. -/
theorem claim_C3 (ctx : Ctx) (fuel : Nat) (st : GraphState)
    (dependencyLocations : List (String × Loc)) (packageLocation : Loc)
    (name : String) (childLogicalPath : List String) (optional : Bool)
    (hfind : findPackage ctx.readDescriptor ctx.canonical packageLocation name = none) :
    (gatherDependency ctx fuel st dependencyLocations packageLocation name
        childLogicalPath optional
        = .error (.cannotFindDependency name packageLocation)
      ↔ ctx.strict = true ∧ optional = false)
    ∧ (¬(ctx.strict = true ∧ optional = false) →
        gatherDependency ctx fuel st dependencyLocations packageLocation name
          childLogicalPath optional
          = .ok (st, dependencyLocations)) := by
  rw [gatherDependency, gatherDependencyStep, hfind]
  cases hs : ctx.strict <;> cases ho : optional <;> simp

/-- Witness for claim C3 at a concrete input: an empty filesystem, a
required dependency `"q"` of the package at `file:///p/` in strict mode. -/
theorem claim_C3_witness :
    findPackage (plainCtx (fun _ => none) true).readDescriptor
        (plainCtx (fun _ => none) true).canonical ["p"] "q" = none
    ∧ (gatherDependency (plainCtx (fun _ => none) true) 3 ⟨[], []⟩ [] ["p"] "q" ["q"] false
        = .error (.cannotFindDependency "q" ["p"])
      ↔ (plainCtx (fun _ => none) true).strict = true ∧ false = false) :=
  ⟨rfl, (claim_C3 (plainCtx (fun _ => none) true) 3 ⟨[], []⟩ [] ["p"] "q" ["q"] false rfl).1⟩

/-! ### Lemmas about the graph translator -/

theorem foldl_step_mem (step : List (String × ModuleDescriptor) → String → List (String × ModuleDescriptor))
    (pl : Loc)
    (hstep : ∀ ms k (p : String × ModuleDescriptor), p ∈ step ms k → p ∈ ms ∨ p.2.compartment = pl) :
    ∀ (ks : List String) (ms : List (String × ModuleDescriptor)) (p : String × ModuleDescriptor),
      p ∈ ks.foldl step ms → p ∈ ms ∨ p.2.compartment = pl
  | [], _, _, h => Or.inl h
  | k :: rest, ms, p, h => by
    rcases foldl_step_mem step pl hstep rest (step ms k) p h with h1 | h1
    · exact hstep ms k p h1
    · exact Or.inr h1

theorem foldl_step_id (step : List (String × ModuleDescriptor) → String → List (String × ModuleDescriptor))
    (hstep : ∀ ms k, step ms k = ms) :
    ∀ (ks : List String) (ms : List (String × ModuleDescriptor)), ks.foldl step ms = ms
  | [], _ => rfl
  | k :: rest, ms => by rw [List.foldl_cons, hstep, foldl_step_id step hstep rest]

/-- Every module descriptor a digest adds points into the digested
compartment. -/
theorem digestExternalAliases_modules_mem {F : Type _} {policy : Option (Policy F)}
    {g : Graph} {pp : Option F} {acc : DigestAcc} {dn : String} {pl : Loc} {acc' : DigestAcc}
    (h : digestExternalAliases policy g pp acc dn pl = .ok acc') :
    ∀ p ∈ acc'.modules, p ∈ acc.modules ∨ p.2.compartment = pl := by
  rw [digestExternalAliases] at h
  rcases hg : alookup pl g with _ | target
  · rw [hg] at h; exact absurd h (by simp)
  · rw [hg] at h
    dsimp only at h
    injection h with h
    subst h
    dsimp only
    intro p hp
    refine foldl_step_mem _ pl ?_ _ _ p hp
    intro ms k q hq
    rcases halk : alookup k target.externalAliases with _ | tp
    · rw [halk] at hq; exact Or.inl hq
    · rw [halk] at hq
      dsimp only at hq
      by_cases hall : policyAllows policy pp target = true
      · rw [if_pos hall] at hq
        rcases mem_jsInsert hq with hq | hq
        · exact Or.inr (by rw [hq])
        · exact Or.inl hq
      · rw [if_neg hall] at hq
        exact Or.inl hq

/-- A digest whose target the policy does not allow adds no module
descriptors. -/
theorem digestExternalAliases_modules_of_not_allowed {F : Type _} {policy : Option (Policy F)}
    {g : Graph} {pp : Option F} {acc : DigestAcc} {dn : String} {pl : Loc} {acc' : DigestAcc}
    {target : Node} (hg : alookup pl g = some target)
    (hall : policyAllows policy pp target = false)
    (h : digestExternalAliases policy g pp acc dn pl = .ok acc') :
    acc'.modules = acc.modules := by
  rw [digestExternalAliases, hg] at h
  dsimp only at h
  injection h with h
  subst h
  dsimp only
  refine foldl_step_id _ ?_ _ _
  intro ms k
  rcases halk : alookup k target.externalAliases with _ | tp
  · rfl
  · dsimp only
    rw [if_neg (by simp [hall])]

/-- The scope table a digest produces: an open-scope entry for the
dependency name when the target lacks explicit exports, regardless of the
policy guard. -/
theorem digestExternalAliases_scopes {F : Type _} {policy : Option (Policy F)}
    {g : Graph} {pp : Option F} {acc : DigestAcc} {dn : String} {pl : Loc} {acc' : DigestAcc}
    {target : Node} (hg : alookup pl g = some target)
    (h : digestExternalAliases policy g pp acc dn pl = .ok acc') :
    acc'.scopes = if !target.explicitExports then
      jsInsert dn (⟨pl⟩ : ScopeDescriptor) acc.scopes else acc.scopes := by
  rw [digestExternalAliases, hg] at h
  dsimp only at h
  injection h with h
  subst h
  rfl

/-- A digest leaves the scope entry of any other dependency name alone. -/
theorem digestExternalAliases_scopes_other {F : Type _} {policy : Option (Policy F)}
    {g : Graph} {pp : Option F} {acc : DigestAcc} {dn : String} {pl : Loc} {acc' : DigestAcc}
    {other : String} (hne : dn ≠ other)
    (h : digestExternalAliases policy g pp acc dn pl = .ok acc') :
    alookup other acc'.scopes = alookup other acc.scopes := by
  rw [digestExternalAliases] at h
  rcases hg : alookup pl g with _ | target
  · rw [hg] at h; exact absurd h (by simp)
  · rw [hg] at h
    dsimp only at h
    injection h with h
    subst h
    dsimp only
    by_cases hx : !target.explicitExports
    · rw [if_pos hx]
      exact alookup_jsInsert_ne _ hne _
    · rw [if_neg hx]

/-- The dependency loop only grows the compartment name set, and every
module descriptor it adds points into a compartment recorded in the final
name set. -/
theorem digestDependencies_facts {F : Type _} {policy : Option (Policy F)} {g : Graph}
    {pp : Option F} {depLocs : List (String × Loc)} :
    ∀ {names : List String} {acc : DigestAcc} {cnames : List Loc}
      {acc' : DigestAcc} {cnames' : List Loc},
      digestDependencies policy g pp depLocs acc cnames names = .ok (acc', cnames') →
      (∀ x ∈ cnames, x ∈ cnames')
      ∧ (∀ p ∈ acc'.modules, p ∈ acc.modules ∨ p.2.compartment ∈ cnames')
  | [], acc, cnames, acc', cnames', h => by
    rw [digestDependencies] at h
    injection h with h
    injection h with h1 h2
    subst h1; subst h2
    exact ⟨fun x hx => hx, fun p hp => Or.inl hp⟩
  | dn :: rest, acc, cnames, acc', cnames', h => by
    rw [digestDependencies] at h
    rcases hdl : alookup dn depLocs with _ | dl
    · rw [hdl] at h
      dsimp only at h
      exact digestDependencies_facts h
    · rw [hdl] at h
      dsimp only at h
      rcases hd : digestExternalAliases policy g pp acc dn dl with e | acc1
      · rw [hd] at h; exact absurd h (by simp [Bind.bind, Except.bind])
      · rw [hd] at h
        simp only [Bind.bind, Except.bind] at h
        rcases digestDependencies_facts h with ⟨hsub, hinv⟩
        refine ⟨fun x hx => hsub x (subset_jsAdd _ _ x hx), fun p hp => ?_⟩
        rcases hinv p hp with hp1 | hp1
        · rcases digestExternalAliases_modules_mem hd p hp1 with hp2 | hp2
          · exact Or.inl hp2
          · exact Or.inr (by rw [hp2]; exact hsub dl (mem_jsAdd.2 (Or.inr rfl)))
        · exact Or.inr hp1

/-- The dependency loop does not touch the scope entry of a name it does
not process. -/
theorem digestDependencies_scopes_preserve {F : Type _} {policy : Option (Policy F)} {g : Graph}
    {pp : Option F} {depLocs : List (String × Loc)} {dn : String} :
    ∀ {names : List String} {acc : DigestAcc} {cnames : List Loc}
      {acc' : DigestAcc} {cnames' : List Loc}, dn ∉ names →
      digestDependencies policy g pp depLocs acc cnames names = .ok (acc', cnames') →
      alookup dn acc'.scopes = alookup dn acc.scopes
  | [], acc, cnames, acc', cnames', _, h => by
    rw [digestDependencies] at h
    injection h with h
    injection h with h1 h2
    subst h1; rfl
  | dn' :: rest, acc, cnames, acc', cnames', hmem, h => by
    rw [digestDependencies] at h
    have hne : dn' ≠ dn := fun he => hmem (he ▸ List.mem_cons_self _ _)
    have hrest : dn ∉ rest := fun hr => hmem (List.mem_cons_of_mem _ hr)
    rcases hdl : alookup dn' depLocs with _ | dl
    · rw [hdl] at h
      dsimp only at h
      exact digestDependencies_scopes_preserve hrest h
    · rw [hdl] at h
      dsimp only at h
      rcases hd : digestExternalAliases policy g pp acc dn' dl with e | acc1
      · rw [hd] at h; exact absurd h (by simp [Bind.bind, Except.bind])
      · rw [hd] at h
        simp only [Bind.bind, Except.bind] at h
        rw [digestDependencies_scopes_preserve hrest h,
          digestExternalAliases_scopes_other hne hd]

/-- After the dependency loop processes a dependency name whose target
package has no explicit exports, the final scope table maps that name to
the target's compartment (the policy guard never blocks this). -/
theorem digestDependencies_scopes_set {F : Type _} {policy : Option (Policy F)} {g : Graph}
    {pp : Option F} {depLocs : List (String × Loc)} {dn : String} {dl : Loc} {dnode : Node}
    (hdl : alookup dn depLocs = some dl) (hg : alookup dl g = some dnode)
    (hne : dnode.explicitExports = false) :
    ∀ {names : List String} {acc : DigestAcc} {cnames : List Loc}
      {acc' : DigestAcc} {cnames' : List Loc}, names.Nodup → dn ∈ names →
      digestDependencies policy g pp depLocs acc cnames names = .ok (acc', cnames') →
      alookup dn acc'.scopes = some (⟨dl⟩ : ScopeDescriptor)
  | [], _, _, _, _, _, hmem, _ => absurd hmem (by simp)
  | dn' :: rest, acc, cnames, acc', cnames', hnd, hmem, h => by
    rw [digestDependencies] at h
    by_cases hcase : dn' = dn
    · subst hcase
      rw [hdl] at h
      dsimp only at h
      rcases hd : digestExternalAliases policy g pp acc dn' dl with e | acc1
      · rw [hd] at h; exact absurd h (by simp [Bind.bind, Except.bind])
      · rw [hd] at h
        simp only [Bind.bind, Except.bind] at h
        have hnotrest : dn' ∉ rest := (List.nodup_cons.1 hnd).1
        rw [digestDependencies_scopes_preserve hnotrest h]
        rw [digestExternalAliases_scopes hg hd, hne]
        simp [alookup_jsInsert_self]
    · have hrest : dn ∈ rest := by
        rcases List.mem_cons.1 hmem with he | he
        · exact absurd he.symm hcase
        · exact he
      rcases hdl' : alookup dn' depLocs with _ | dl'
      · rw [hdl'] at h
        dsimp only at h
        exact digestDependencies_scopes_set hdl hg hne (List.nodup_cons.1 hnd).2 hrest h
      · rw [hdl'] at h
        dsimp only at h
        rcases hd : digestExternalAliases policy g pp acc dn' dl' with e | acc1
        · rw [hd] at h; exact absurd h (by simp [Bind.bind, Except.bind])
        · rw [hd] at h
          simp only [Bind.bind, Except.bind] at h
          exact digestDependencies_scopes_set hdl hg hne (List.nodup_cons.1 hnd).2 hrest h

/-- With a policy active and the target package `rnode` at `Rloc` not
allowed for this consumer, the dependency loop adds no module descriptor
pointing into `Rloc`. -/
theorem digestDependencies_modules_avoid {F : Type _} {policy : Option (Policy F)} {g : Graph}
    {pp : Option F} {depLocs : List (String × Loc)} {Rloc : Loc} {rnode : Node}
    (hR : alookup Rloc g = some rnode) (hall : policyAllows policy pp rnode = false) :
    ∀ {names : List String} {acc : DigestAcc} {cnames : List Loc}
      {acc' : DigestAcc} {cnames' : List Loc},
      digestDependencies policy g pp depLocs acc cnames names = .ok (acc', cnames') →
      (∀ p ∈ acc.modules, p.2.compartment ≠ Rloc) →
      ∀ p ∈ acc'.modules, p.2.compartment ≠ Rloc
  | [], acc, cnames, acc', cnames', h, hbase => by
    rw [digestDependencies] at h
    injection h with h
    injection h with h1 h2
    subst h1
    exact hbase
  | dn' :: rest, acc, cnames, acc', cnames', h, hbase => by
    rw [digestDependencies] at h
    rcases hdl : alookup dn' depLocs with _ | dl
    · rw [hdl] at h
      dsimp only at h
      exact digestDependencies_modules_avoid hR hall h hbase
    · rw [hdl] at h
      dsimp only at h
      rcases hd : digestExternalAliases policy g pp acc dn' dl with e | acc1
      · rw [hd] at h; exact absurd h (by simp [Bind.bind, Except.bind])
      · rw [hd] at h
        simp only [Bind.bind, Except.bind] at h
        refine digestDependencies_modules_avoid hR hall h ?_
        by_cases hdlR : dl = Rloc
        · subst hdlR
          rw [digestExternalAliases_modules_of_not_allowed hR hall hd]
          exact hbase
        · intro p hp
          rcases digestExternalAliases_modules_mem hd p hp with hp1 | hp1
          · exact hbase p hp1
          · rw [hp1]; exact hdlR

/-- Every module descriptor the internal-alias loop adds points into the
compartment itself. -/
theorem digestInternalAliases_mem (loc : Loc) (ia : List (String × String)) :
    ∀ (ks : List String) (ms : List (String × ModuleDescriptor)) (p : String × ModuleDescriptor),
      p ∈ digestInternalAliases loc ia ms ks → p ∈ ms ∨ p.2.compartment = loc
  | [], ms, p, h => Or.inl h
  | k :: rest, ms, p, h => by
    rw [digestInternalAliases] at h
    rcases ha : alookup k ia with _ | target
    · rw [ha] at h
      exact digestInternalAliases_mem loc ia rest ms p h
    · rw [ha] at h
      dsimp only at h
      by_cases hrel : (target.startsWith "./" || target = ".") = true
      · rw [if_pos hrel] at h
        rcases digestInternalAliases_mem loc ia rest _ p h with h1 | h1
        · rcases mem_jsInsert h1 with h2 | h2
          · exact Or.inr (by rw [h2])
          · exact Or.inl h2
        · exact Or.inr h1
      · rw [if_neg hrel] at h
        exact digestInternalAliases_mem loc ia rest ms p h

/-- Unfolded success shape of `buildCompartment`. -/
theorem buildCompartment_ok_elim {F : Type _} {policy : Option (Policy F)} {g : Graph}
    {e loc : Loc} {node : Node} {c : CompartmentDescriptor F}
    (h : buildCompartment policy g e loc node = .ok c) :
    ∃ acc1 acc2 cnames,
      digestExternalAliases policy g
          (getPolicyForPackage policy (decide (loc = e)) node.name node.path)
          ⟨[], []⟩ node.name loc = .ok acc1
      ∧ digestDependencies policy g
          (getPolicyForPackage policy (decide (loc = e)) node.name node.path)
          node.dependencyLocations acc1 [] (sortedKeys node.dependencyLocations)
          = .ok (acc2, cnames)
      ∧ ¬(policy.isSome
          ∧ (getPolicyForPackage policy (decide (loc = e)) node.name node.path).isNone)
      ∧ c = { label := node.label, name := node.name, path := node.path,
              location := loc,
              modules := digestInternalAliases loc node.internalAliases
                acc2.modules (sortedKeys node.internalAliases),
              scopes := acc2.scopes, parsers := node.parsers, types := node.types,
              policy := getPolicyForPackage policy (decide (loc = e)) node.name node.path,
              compartments := cnames } := by
  rw [buildCompartment] at h
  by_cases hguard : (policy.isSome
      && (getPolicyForPackage policy (decide (loc = e)) node.name node.path).isNone) = true
  · rw [if_pos hguard] at h
    exact absurd h (by simp)
  · rw [if_neg hguard] at h
    rcases h1 : digestExternalAliases policy g
        (getPolicyForPackage policy (decide (loc = e)) node.name node.path)
        ⟨[], []⟩ node.name loc with e1 | acc1
    · rw [h1] at h; exact absurd h (by simp [Bind.bind, Except.bind])
    · rw [h1] at h
      simp only [Bind.bind, Except.bind] at h
      rcases h2 : digestDependencies policy g
          (getPolicyForPackage policy (decide (loc = e)) node.name node.path)
          node.dependencyLocations acc1 [] (sortedKeys node.dependencyLocations)
          with e2 | acc2pair
      · rw [h2] at h; exact absurd h (by simp)
      · rw [h2] at h
        rcases acc2pair with ⟨acc2, cnames⟩
        dsimp only at h
        injection h with h
        refine ⟨acc1, acc2, cnames, ?_, ?_, ?_, ?_⟩
        · exact h1 ▸ rfl
        · exact h2 ▸ rfl
        · intro hcon
          exact absurd (by simp [hcon.1, hcon.2] : (policy.isSome
            && (getPolicyForPackage policy (decide (loc = e)) node.name node.path).isNone)
            = true) hguard
        · exact h.symm

/-- Claim-C6 shape at the level of one compartment: every module descriptor
points either at the compartment itself or at a member of its compartment
name set. -/
theorem buildCompartment_modules_closed {F : Type _} {policy : Option (Policy F)} {g : Graph}
    {e loc : Loc} {node : Node} {c : CompartmentDescriptor F}
    (h : buildCompartment policy g e loc node = .ok c) :
    ∀ p ∈ c.modules, p.2.compartment = loc ∨ p.2.compartment ∈ c.compartments := by
  rcases buildCompartment_ok_elim h with ⟨acc1, acc2, cnames, h1, h2, _, hc⟩
  subst hc
  intro p hp
  dsimp only at hp ⊢
  rcases digestInternalAliases_mem loc node.internalAliases _ _ p hp with hp1 | hp1
  · rcases (digestDependencies_facts h2).2 p hp1 with hp2 | hp2
    · rcases digestExternalAliases_modules_mem h1 p hp2 with hp3 | hp3
      · exact absurd hp3 (by simp)
      · exact Or.inl hp3
    · exact Or.inr hp2
  · exact Or.inl hp1

/-- Claim-C10 shape at the level of one compartment: a dependency whose
target has no explicit exports gets an open-scope entry at its name,
pointing at the target's compartment, whatever the policy. -/
theorem buildCompartment_scopes_set {F : Type _} {policy : Option (Policy F)} {g : Graph}
    {e loc : Loc} {node : Node} {c : CompartmentDescriptor F} {dn : String} {dl : Loc}
    {dnode : Node}
    (h : buildCompartment policy g e loc node = .ok c)
    (hdl : alookup dn node.dependencyLocations = some dl)
    (hg : alookup dl g = some dnode) (hne : dnode.explicitExports = false) :
    alookup dn c.scopes = some (⟨dl⟩ : ScopeDescriptor) := by
  rcases buildCompartment_ok_elim h with ⟨acc1, acc2, cnames, _, h2, _, hc⟩
  subst hc
  dsimp only
  refine digestDependencies_scopes_set hdl hg hne
    (nodup_sortBy _ (nodup_jsDedup _)) ?_ h2
  refine (mem_sortBy _).2 (mem_jsDedup.2 ?_)
  exact alookup_isSome_iff.1 (by rw [hdl]; rfl)

/-- Claim-C1 shape at the level of one compartment: with a policy active
whose fragment for this consumer forbids the package `rnode` at `Rloc`, no
module descriptor of the consumer points into `Rloc`. -/
theorem buildCompartment_modules_avoid {F : Type _} {pol : Policy F} {g : Graph}
    {e loc : Loc} {node : Node} {c : CompartmentDescriptor F} {Rloc : Loc} {rnode : Node}
    (hR : alookup Rloc g = some rnode) (hRne : loc ≠ Rloc)
    (hallow : ∀ f, getPolicyForPackage (some pol) (decide (loc = e)) node.name node.path
        = some f → dependencyAllowedByPolicy pol rnode.name rnode.path f = false)
    (h : buildCompartment (some pol) g e loc node = .ok c) :
    ∀ p ∈ c.modules, p.2.compartment ≠ Rloc := by
  rcases buildCompartment_ok_elim h with ⟨acc1, acc2, cnames, h1, h2, hguard, hc⟩
  subst hc
  have hpp : ∃ f, getPolicyForPackage (some pol) (decide (loc = e)) node.name node.path
      = some f := by
    rcases hcase : getPolicyForPackage (some pol) (decide (loc = e)) node.name node.path
        with _ | f
    · exact absurd ⟨rfl, by rw [hcase]; rfl⟩ hguard
    · exact ⟨f, rfl⟩
  rcases hpp with ⟨f, hf⟩
  have hallf : policyAllows (some pol) (getPolicyForPackage (some pol) (decide (loc = e))
      node.name node.path) rnode = false := by
    rw [hf]
    exact hallow f hf
  intro p hp
  dsimp only at hp
  rcases digestInternalAliases_mem loc node.internalAliases _ _ p hp with hp1 | hp1
  · refine digestDependencies_modules_avoid hR hallf h2 ?_ p hp1
    intro q hq
    rcases digestExternalAliases_modules_mem h1 q hq with hq1 | hq1
    · exact absurd hq1 (by simp)
    · rw [hq1]; exact hRne
  · rw [hp1]; exact hRne

/-- The keys of a successful `buildCompartments` run are the iterated
locations that had graph nodes, in order. -/
theorem buildCompartments_keys {F : Type _} {policy : Option (Policy F)} {g : Graph} {e : Loc} :
    ∀ {ks : List Loc} {cs : List (Loc × CompartmentDescriptor F)},
      buildCompartments policy g e ks = .ok cs →
      cs.map Prod.fst = ks.filter (fun l => (alookup l g).isSome)
  | [], cs, h => by
    rw [buildCompartments] at h
    injection h with h
    subst h; rfl
  | loc :: rest, cs, h => by
    rw [buildCompartments] at h
    rcases hg : alookup loc g with _ | node
    · rw [hg] at h
      rw [List.filter_cons, buildCompartments_keys h]
      simp [hg]
    · rw [hg] at h
      dsimp only at h
      rcases h1 : buildCompartment policy g e loc node with e1 | c
      · rw [h1] at h; exact absurd h (by simp [Bind.bind, Except.bind])
      · rw [h1] at h
        simp only [Bind.bind, Except.bind] at h
        rcases h2 : buildCompartments policy g e rest with e2 | cs'
        · rw [h2] at h; exact absurd h (by simp)
        · rw [h2] at h
          injection h with h
          subst h
          rw [List.filter_cons]
          simp only [List.map_cons, buildCompartments_keys h2]
          simp [hg]

/-- Looking up an iterated location in a successful `buildCompartments` run
gives exactly its `buildCompartment` result. -/
theorem buildCompartments_lookup {F : Type _} {policy : Option (Policy F)} {g : Graph} {e : Loc}
    (loc : Loc) (node : Node) :
    ∀ (ks : List Loc) (cs : List (Loc × CompartmentDescriptor F)), ks.Nodup →
      buildCompartments policy g e ks = .ok cs → loc ∈ ks → alookup loc g = some node →
      ∃ c, buildCompartment policy g e loc node = .ok c ∧ alookup loc cs = some c
  | [], _, _, _, hmem, _ => absurd hmem (by simp)
  | k :: rest, cs, hnd, h, hmem, hg => by
    rw [buildCompartments] at h
    by_cases hcase : k = loc
    · subst hcase
      rw [hg] at h
      dsimp only at h
      rcases h1 : buildCompartment policy g e k node with e1 | c
      · rw [h1] at h; exact absurd h (by simp [Bind.bind, Except.bind])
      · rw [h1] at h
        simp only [Bind.bind, Except.bind] at h
        rcases h2 : buildCompartments policy g e rest with e2 | cs'
        · rw [h2] at h; exact absurd h (by simp)
        · rw [h2] at h
          injection h with h
          subst h
          exact ⟨c, rfl, by rw [alookup, if_pos rfl]⟩
    · have hrest : loc ∈ rest := by
        rcases List.mem_cons.1 hmem with he | he
        · exact absurd he.symm hcase
        · exact he
      rcases hgk : alookup k g with _ | nodek
      · rw [hgk] at h
        exact buildCompartments_lookup loc node rest cs (List.nodup_cons.1 hnd).2 h hrest hg
      · rw [hgk] at h
        dsimp only at h
        rcases h1 : buildCompartment policy g e k nodek with e1 | ck
        · rw [h1] at h; exact absurd h (by simp [Bind.bind, Except.bind])
        · rw [h1] at h
          simp only [Bind.bind, Except.bind] at h
          rcases h2 : buildCompartments policy g e rest with e2 | cs'
          · rw [h2] at h; exact absurd h (by simp)
          · rw [h2] at h
            injection h with h
            subst h
            rcases buildCompartments_lookup loc node rest cs' (List.nodup_cons.1 hnd).2 h2
                hrest hg with ⟨c, hbc, hlk⟩
            exact ⟨c, hbc, by rw [alookup, if_neg hcase]; exact hlk⟩

theorem sortedLocKeys_nodup {β : Type _} (l : List (List String × β)) :
    (sortedLocKeys l).Nodup :=
  nodup_sortBy _ (nodup_jsDedup _)

theorem mem_sortedLocKeys {β : Type _} {l : List (List String × β)} {loc : List String} :
    loc ∈ sortedLocKeys l ↔ loc ∈ l.map Prod.fst := by
  rw [sortedLocKeys, mem_sortBy, mem_jsDedup]

/-- Success shape of `translateGraph`. -/
theorem translateGraph_ok_parts {F : Type _} {e : Loc} {spec : String} {g : Graph}
    {conds : List String} {policy : Option (Policy F)} {m : CompartmentMap F}
    (h : translateGraph e spec g conds policy = .ok m) :
    m.tags = conds ∧ m.entryCompartment = e ∧ m.entryModule = spec
    ∧ buildCompartments policy g e (sortedLocKeys g) = .ok m.compartments := by
  rw [translateGraph] at h
  rcases h1 : buildCompartments policy g e (sortedLocKeys g) with e1 | cs
  · rw [h1] at h; exact absurd h (by simp [Bind.bind, Except.bind])
  · rw [h1] at h
    simp only [Bind.bind, Except.bind] at h
    injection h with h
    subst h
    exact ⟨rfl, rfl, rfl, rfl⟩

/-- The compartment table of a successful translation is keyed by the
sorted graph locations. -/
theorem translateGraph_keys {F : Type _} {e : Loc} {spec : String} {g : Graph}
    {conds : List String} {policy : Option (Policy F)} {m : CompartmentMap F}
    (h : translateGraph e spec g conds policy = .ok m) :
    m.compartments.map Prod.fst = sortedLocKeys g := by
  rw [buildCompartments_keys (translateGraph_ok_parts h).2.2.2]
  refine List.filter_eq_self.2 ?_
  intro loc hloc
  exact alookup_isSome_iff.2 (mem_sortedLocKeys.1 hloc)

/-- Looking up a graph location in a successful translation gives its
`buildCompartment` result. -/
theorem translateGraph_lookup {F : Type _} {e : Loc} {spec : String} {g : Graph}
    {conds : List String} {policy : Option (Policy F)} {m : CompartmentMap F}
    {loc : Loc} {node : Node}
    (h : translateGraph e spec g conds policy = .ok m)
    (hg : alookup loc g = some node) :
    ∃ c, buildCompartment policy g e loc node = .ok c
      ∧ alookup loc m.compartments = some c := by
  refine buildCompartments_lookup loc node (sortedLocKeys g) m.compartments
    (sortedLocKeys_nodup g) (translateGraph_ok_parts h).2.2.2 ?_ hg
  exact mem_sortedLocKeys.2 (alookup_isSome_iff.1 (by rw [hg]; rfl))

/-- Claim C6: in every compartment descriptor emitted by `translateGraph`,
every entry of the modules table names a compartment that is either the
compartment itself (self-reference) or a member of the compartment's own
compartment name set; no module descriptor names any other compartment. -/
theorem claim_C6 {F : Type _} {e : Loc} {spec : String} {g : Graph} {conds : List String}
    {policy : Option (Policy F)} {m : CompartmentMap F} {loc : Loc}
    {c : CompartmentDescriptor F}
    (hok : translateGraph e spec g conds policy = .ok m)
    (hc : alookup loc m.compartments = some c) :
    ∀ p ∈ c.modules, p.2.compartment = loc ∨ p.2.compartment ∈ c.compartments := by
  have hmemkeys : loc ∈ m.compartments.map Prod.fst :=
    alookup_isSome_iff.1 (by rw [hc]; rfl)
  rw [translateGraph_keys hok] at hmemkeys
  have hg : (alookup loc g).isSome = true :=
    alookup_isSome_iff.2 (mem_sortedLocKeys.1 hmemkeys)
  rcases hgx : alookup loc g with _ | node
  · rw [hgx] at hg; exact absurd hg (by simp)
  · rcases translateGraph_lookup hok hgx with ⟨c', hbc, hlk⟩
    rw [hc] at hlk
    injection hlk with hlk
    subst hlk
    exact buildCompartment_modules_closed hbc

/-- Claim C10: for every consumer compartment and every dependency name
whose target package declares no explicit exports, `translateGraph`
registers the open-scope entry for that name pointing at the target's
compartment unconditionally — the statement takes an arbitrary policy, so
this holds in particular when a policy is active and does not allow the
dependency; the policy guard applies only to enumerated module
descriptors. -/
theorem claim_C10 {F : Type _} {e : Loc} {spec : String} {g : Graph} {conds : List String}
    {policy : Option (Policy F)} {m : CompartmentMap F} {loc : Loc} {cnode : Node}
    {dn : String} {dl : Loc} {dnode : Node} {c : CompartmentDescriptor F}
    (hok : translateGraph e spec g conds policy = .ok m)
    (hcnode : alookup loc g = some cnode)
    (hdl : alookup dn cnode.dependencyLocations = some dl)
    (hdnode : alookup dl g = some dnode)
    (hnoexp : dnode.explicitExports = false)
    (hc : alookup loc m.compartments = some c) :
    alookup dn c.scopes = some (⟨dl⟩ : ScopeDescriptor) := by
  rcases translateGraph_lookup hok hcnode with ⟨c', hbc, hlk⟩
  rw [hc] at hlk
  injection hlk with hlk
  subst hlk
  exact buildCompartment_scopes_set hbc hdl hdnode hnoexp

/-- Claim C1: when the supplied policy forbids the package `P` (at `Ploc`)
from importing the package `R` (at `Rloc`, present in the graph), the
translated compartment map's modules table for `P` contains no entry whose
descriptor names `R`'s compartment, while `R`'s compartment still appears
in the map. -/
theorem claim_C1 {F : Type _} {e : Loc} {spec : String} {g : Graph} {conds : List String}
    {pol : Policy F} {m : CompartmentMap F} {Ploc : Loc} {pnode : Node}
    {Rloc : Loc} {rnode : Node}
    (hok : translateGraph e spec g conds (some pol) = .ok m)
    (hP : alookup Ploc g = some pnode)
    (hR : alookup Rloc g = some rnode)
    (hne : Ploc ≠ Rloc)
    (hforbid : ∀ f, pol.resolveFragment (decide (Ploc = e)) pnode.name pnode.path = some f →
      pol.isDependencyAllowed rnode.name rnode.path f = false) :
    (∀ c, alookup Ploc m.compartments = some c →
      ∀ p ∈ c.modules, p.2.compartment ≠ Rloc)
    ∧ Rloc ∈ m.compartments.map Prod.fst := by
  constructor
  · intro c hc p hp
    rcases translateGraph_lookup hok hP with ⟨c', hbc, hlk⟩
    rw [hc] at hlk
    injection hlk with hlk
    subst hlk
    refine buildCompartment_modules_avoid hR hne ?_ hbc p hp
    intro f hf
    exact hforbid f hf
  · rw [translateGraph_keys hok]
    exact mem_sortedLocKeys.2 (alookup_isSome_iff.1 (by rw [hR]; rfl))

/-! ### Concrete fixtures for the translator claims -/

/-- The entry location of the concrete examples. -/
def exApp : Loc := ["app"]

/-- A dependency location of the concrete examples. -/
def exB : Loc := ["app", "node_modules", "b"]

/-- The forbidden dependency location of the C1 example. -/
def exR : Loc := ["app", "node_modules", "r"]

/-- Entry node exporting `"."` and depending on `b`. -/
def exNodeApp : Node :=
  ⟨"app", [], "app", true, [(".", "./index.js")], [], [("b", exB)], [], []⟩

/-- Dependency node with explicit exports. -/
def exNodeB : Node :=
  ⟨"b", ["b"], "b", true, [(".", "./main.js")], [], [], [], []⟩

/-- Dependency node without explicit exports (open-scope fallback). -/
def exNodeBNoExports : Node :=
  ⟨"b", ["b"], "b", false, [], [], [], [], []⟩

/-- Entry node depending on the forbidden package `r`. -/
def exNodeAppR : Node :=
  ⟨"app", [], "app", true, [(".", "./index.js")], [], [("r", exR)], [], []⟩

/-- The forbidden package node. -/
def exNodeR : Node :=
  ⟨"r", ["r"], "r", true, [(".", "./main.js")], [], [], [], []⟩

/-- A policy whose fragments resolve everywhere and that allows nothing. -/
def denyAllPolicy : Policy Unit :=
  ⟨fun _ _ _ => some (), fun _ _ _ => false⟩

/-- A policy whose fragments resolve everywhere and that forbids exactly
the package named `r`. -/
def forbidRPolicy : Policy Unit :=
  ⟨fun _ _ _ => some (), fun name _ _ => name != "r"⟩

/-- The graph of the C6 example. -/
def c6Graph : Graph := [(exApp, exNodeApp), (exB, exNodeB)]

/-- The compartment descriptor of the entry in the C6 example. -/
def c6AppCompartment : CompartmentDescriptor Unit :=
  ⟨"app", "app", [], exApp,
    [("app", ⟨exApp, "./index.js"⟩), ("b", ⟨exB, "./main.js"⟩)],
    [], [], [], none, [exB]⟩

/-- The compartment descriptor of `b` in the C6 example. -/
def c6BCompartment : CompartmentDescriptor Unit :=
  ⟨"b", "b", ["b"], exB, [("b", ⟨exB, "./main.js"⟩)], [], [], [], none, []⟩

/-- The translated map of the C6 example. -/
def c6Map : CompartmentMap Unit :=
  ⟨[], exApp, "./index.js", [(exApp, c6AppCompartment), (exB, c6BCompartment)]⟩

/-- Witness for claim C6 at a concrete input: the entry's module table
entry for `b` names `b`'s compartment, which is where the conclusion of the
claim places it (a member of the entry's compartment name set). -/
theorem claim_C6_witness :
    translateGraph (F := Unit) exApp "./index.js" c6Graph [] none = .ok c6Map
    ∧ ((("b", (⟨exB, "./main.js"⟩ : ModuleDescriptor)) : String × ModuleDescriptor).2.compartment
          = exApp
        ∨ (("b", (⟨exB, "./main.js"⟩ : ModuleDescriptor)) : String × ModuleDescriptor).2.compartment
          ∈ c6AppCompartment.compartments) :=
  ⟨rfl, claim_C6
    (show translateGraph (F := Unit) exApp "./index.js" c6Graph [] none = .ok c6Map from rfl)
    (show alookup exApp c6Map.compartments = some c6AppCompartment from rfl)
    ("b", ⟨exB, "./main.js"⟩) (by decide)⟩

/-- The graph of the C10 example. -/
def c10Graph : Graph := [(exApp, exNodeApp), (exB, exNodeBNoExports)]

/-- The compartment descriptor of the entry in the C10 example: no module
descriptors survive the denying policy, but the open scope for `b` is
registered regardless. -/
def c10AppCompartment : CompartmentDescriptor Unit :=
  ⟨"app", "app", [], exApp, [], [("b", ⟨exB⟩)], [], [], some (), [exB]⟩

/-- The compartment descriptor of `b` in the C10 example. -/
def c10BCompartment : CompartmentDescriptor Unit :=
  ⟨"b", "b", ["b"], exB, [], [("b", ⟨exB⟩)], [], [], some (), []⟩

/-- The translated map of the C10 example. -/
def c10Map : CompartmentMap Unit :=
  ⟨[], exApp, "./index.js", [(exApp, c10AppCompartment), (exB, c10BCompartment)]⟩

/-- Witness for claim C10 at a concrete input: under a policy that allows
nothing, the entry still gets the open-scope entry for its dependency `b`
(whose package has no explicit exports), pointing at `b`'s compartment. -/
theorem claim_C10_witness :
    denyAllPolicy.isDependencyAllowed "b" ["b"] () = false
    ∧ translateGraph (F := Unit) exApp "./index.js" c10Graph [] (some denyAllPolicy)
        = .ok c10Map
    ∧ alookup "b" c10AppCompartment.scopes = some (⟨exB⟩ : ScopeDescriptor) :=
  ⟨rfl, rfl, claim_C10
    (show translateGraph (F := Unit) exApp "./index.js" c10Graph [] (some denyAllPolicy)
      = .ok c10Map from rfl)
    (show alookup exApp c10Graph = some exNodeApp from rfl)
    (show alookup "b" exNodeApp.dependencyLocations = some exB from rfl)
    (show alookup exB c10Graph = some exNodeBNoExports from rfl)
    (show exNodeBNoExports.explicitExports = false from rfl)
    (show alookup exApp c10Map.compartments = some c10AppCompartment from rfl)⟩

/-- The graph of the C1 example. -/
def c1Graph : Graph := [(exApp, exNodeAppR), (exR, exNodeR)]

/-- The compartment descriptor of the entry in the C1 example: only the
self-reference module survives; nothing points into `r`'s compartment. -/
def c1AppCompartment : CompartmentDescriptor Unit :=
  ⟨"app", "app", [], exApp, [("app", ⟨exApp, "./index.js"⟩)], [], [], [],
    some (), [exR]⟩

/-- The compartment descriptor of `r` in the C1 example. -/
def c1RCompartment : CompartmentDescriptor Unit :=
  ⟨"r", "r", ["r"], exR, [], [], [], [], some (), []⟩

/-- The translated map of the C1 example. -/
def c1Map : CompartmentMap Unit :=
  ⟨[], exApp, "./index.js", [(exApp, c1AppCompartment), (exR, c1RCompartment)]⟩

/-- Witness for claim C1 at a concrete input: with the policy forbidding
`r`, the entry's surviving module entry does not name `r`'s compartment,
and `r`'s compartment is still present in the map. -/
theorem claim_C1_witness :
    translateGraph (F := Unit) exApp "./index.js" c1Graph [] (some forbidRPolicy)
        = .ok c1Map
    ∧ (("app", (⟨exApp, "./index.js"⟩ : ModuleDescriptor))
        : String × ModuleDescriptor).2.compartment ≠ exR
    ∧ exR ∈ c1Map.compartments.map Prod.fst :=
  ⟨rfl,
    (claim_C1
      (show translateGraph (F := Unit) exApp "./index.js" c1Graph [] (some forbidRPolicy)
        = .ok c1Map from rfl)
      (show alookup exApp c1Graph = some exNodeAppR from rfl)
      (show alookup exR c1Graph = some exNodeR from rfl)
      (by decide) (fun f _ => rfl)).1 c1AppCompartment rfl
      ("app", ⟨exApp, "./index.js"⟩) (by decide),
    (claim_C1
      (show translateGraph (F := Unit) exApp "./index.js" c1Graph [] (some forbidRPolicy)
        = .ok c1Map from rfl)
      (show alookup exApp c1Graph = some exNodeAppR from rfl)
      (show alookup exR c1Graph = some exNodeR from rfl)
      (by decide) (fun f _ => rfl)).2⟩

/-! ### Representation independence of the translator -/

theorem digestExternalAliases_congr {F : Type _} {policy : Option (Policy F)} {g1 g2 : Graph}
    (h : ∀ k, alookup k g1 = alookup k g2) (pp : Option F) (acc : DigestAcc)
    (dn : String) (pl : Loc) :
    digestExternalAliases policy g1 pp acc dn pl
      = digestExternalAliases policy g2 pp acc dn pl := by
  rw [digestExternalAliases, digestExternalAliases, h pl]

theorem digestDependencies_congr {F : Type _} {policy : Option (Policy F)} {g1 g2 : Graph}
    (h : ∀ k, alookup k g1 = alookup k g2) (pp : Option F) (depLocs : List (String × Loc)) :
    ∀ (names : List String) (acc : DigestAcc) (cnames : List Loc),
      digestDependencies policy g1 pp depLocs acc cnames names
        = digestDependencies policy g2 pp depLocs acc cnames names
  | [], acc, cnames => by rw [digestDependencies, digestDependencies]
  | dn :: rest, acc, cnames => by
    rw [digestDependencies, digestDependencies]
    rcases hdl : alookup dn depLocs with _ | dl
    · exact digestDependencies_congr h pp depLocs rest acc cnames
    · dsimp only
      rw [digestExternalAliases_congr h pp acc dn dl]
      rcases hd : digestExternalAliases policy g2 pp acc dn dl with e | acc1
      · simp [Bind.bind, Except.bind]
      · simp only [Bind.bind, Except.bind]
        exact digestDependencies_congr h pp depLocs rest acc1 (jsAdd cnames dl)

theorem buildCompartment_congr {F : Type _} {policy : Option (Policy F)} {g1 g2 : Graph}
    (h : ∀ k, alookup k g1 = alookup k g2) (e loc : Loc) (node : Node) :
    buildCompartment policy g1 e loc node = buildCompartment policy g2 e loc node := by
  rw [buildCompartment, buildCompartment]
  by_cases hguard : (policy.isSome
      && (getPolicyForPackage policy (decide (loc = e)) node.name node.path).isNone) = true
  · rw [if_pos hguard, if_pos hguard]
  · rw [if_neg hguard, if_neg hguard]
    rw [digestExternalAliases_congr h _ _ node.name loc]
    rcases h1 : digestExternalAliases policy g2
        (getPolicyForPackage policy (decide (loc = e)) node.name node.path)
        ⟨[], []⟩ node.name loc with e1 | acc1
    · simp [Bind.bind, Except.bind]
    · simp only [Bind.bind, Except.bind]
      rw [digestDependencies_congr h _ node.dependencyLocations
        (sortedKeys node.dependencyLocations) acc1 []]

theorem buildCompartments_congr {F : Type _} {policy : Option (Policy F)} {g1 g2 : Graph}
    (h : ∀ k, alookup k g1 = alookup k g2) (e : Loc) :
    ∀ (ks : List Loc),
      buildCompartments policy g1 e ks = buildCompartments policy g2 e ks
  | [] => by rw [buildCompartments, buildCompartments]
  | loc :: rest => by
    rw [buildCompartments, buildCompartments, h loc]
    rcases hg : alookup loc g2 with _ | node
    · exact buildCompartments_congr h e rest
    · dsimp only
      rw [buildCompartment_congr h e loc node]
      rcases h1 : buildCompartment policy g2 e loc node with e1 | c
      · simp [Bind.bind, Except.bind]
      · simp only [Bind.bind, Except.bind]
        rw [buildCompartments_congr h e rest]

theorem sortedLocKeys_congr {β : Type _} {g1 g2 : List (List String × β)}
    (h : ∀ k, alookup k g1 = alookup k g2) : sortedLocKeys g1 = sortedLocKeys g2 := by
  rw [sortedLocKeys, sortedLocKeys]
  refine sortBy_eq_of_perm locLeB locLeB_total locLeB_trans locLeB_antisymm ?_
  refine (List.perm_ext_iff_of_nodup (nodup_jsDedup _) (nodup_jsDedup _)).2 ?_
  intro a
  rw [mem_jsDedup, mem_jsDedup, ← alookup_isSome_iff, ← alookup_isSome_iff, h a]

/-- Claim C9: the compartment map is a deterministic function of the
inputs.  In the embedding every input is already extensional except the
graph object, whose JS key-insertion order depends on traversal history;
the first conjunct shows the translation result is independent of that
representation (two graphs with the same location-to-node mapping translate
identically), because every iteration is performed in sorted key order; the
second conjunct exhibits the sorted iteration: the emitted compartment
table is keyed exactly by the sorted graph locations. -/
theorem claim_C9 {F : Type _} {e : Loc} {spec : String} {conds : List String}
    {policy : Option (Policy F)} {g1 g2 : Graph} {m : CompartmentMap F}
    (h : ∀ k, alookup k g1 = alookup k g2) :
    translateGraph e spec g1 conds policy = translateGraph e spec g2 conds policy
    ∧ (translateGraph e spec g1 conds policy = .ok m →
        m.compartments.map Prod.fst = sortedLocKeys g1) := by
  constructor
  · rw [translateGraph, translateGraph, sortedLocKeys_congr h,
      buildCompartments_congr h e (sortedLocKeys g2)]
  · exact translateGraph_keys

/-- The C6 example graph with its two entries in the opposite insertion
order (the same finite map). -/
def c6GraphRev : Graph := [(exB, exNodeB), (exApp, exNodeApp)]

/-- Lookup in a two-entry association list with distinct keys is invariant
under swapping the entries. -/
theorem alookup_pair_swap {α β : Type _} [DecidableEq α] {k1 k2 : α} (v1 v2 : β)
    (hne : k1 ≠ k2) (k : α) :
    alookup k [(k1, v1), (k2, v2)] = alookup k [(k2, v2), (k1, v1)] := by
  simp only [alookup]
  by_cases h1 : k1 = k
  · rw [if_pos h1, if_neg (fun h2 => hne (h1.trans h2.symm)), if_pos h1]
  · rw [if_neg h1]
    by_cases h2 : k2 = k
    · rw [if_pos h2, if_pos h2]
    · rw [if_neg h2, if_neg h2, if_neg h1]

/-- Witness for claim C9 at a concrete input: the C6 example graph and its
reversed-insertion-order variant translate to the same compartment map, and
the emitted compartment table is keyed by the sorted locations. -/
theorem claim_C9_witness :
    translateGraph (F := Unit) exApp "./index.js" c6Graph [] none
      = translateGraph (F := Unit) exApp "./index.js" c6GraphRev [] none
    ∧ c6Map.compartments.map Prod.fst = sortedLocKeys c6Graph := by
  have h : ∀ k, alookup k c6Graph = alookup k c6GraphRev :=
    alookup_pair_swap exNodeApp exNodeB (by decide)
  exact ⟨(claim_C9 (m := c6Map) h).1,
    (claim_C9 (m := c6Map) h).2
      (show translateGraph (F := Unit) exApp "./index.js" c6Graph [] none
        = .ok c6Map from rfl)⟩

/-- Claim C7: the output contains the reserved attenuators compartment iff
a policy was supplied (first two conjuncts: a real package claiming the
reserved name is a fatal abort, and on success the reserved compartment is
present exactly when a policy is active), and the node the attenuators step
adds is a clone of the entry package's node with cleared (external) aliases
and the reserved name and label (third conjunct). -/
theorem claim_C7 {F : Type _} (policy : Option (Policy F)) (g : Graph) (e : Loc)
    (spec : String) (conds : List String) :
    (∀ pol : Policy F, policy = some pol →
      (alookup attenuatorsCompartment g).isSome = true →
      attenuateAndTranslate policy g e spec conds = .error .reservedNameCollision)
    ∧ (∀ m : CompartmentMap F, alookup attenuatorsCompartment g = none →
        attenuateAndTranslate policy g e spec conds = .ok m →
        ((alookup attenuatorsCompartment m.compartments).isSome ↔ policy.isSome))
    ∧ (∀ (pol : Policy F) (n : Node), policy = some pol →
        alookup attenuatorsCompartment g = none → alookup e g = some n →
        addAttenuators policy g e = .ok (g ++ [(attenuatorsCompartment,
          { n with
            externalAliases := [],
            label := attenuatorsName,
            name := attenuatorsName })])) := by
  refine ⟨?_, ?_, ?_⟩
  · intro pol hpol hcol
    subst hpol
    rw [attenuateAndTranslate, addAttenuators]
    dsimp only
    rw [if_pos hcol]
    rfl
  · intro m hfree hok
    rw [attenuateAndTranslate] at hok
    rcases policy with _ | pol
    · rw [addAttenuators] at hok
      simp only [Bind.bind, Except.bind] at hok
      have hkeys := translateGraph_keys hok
      simp only [Option.isSome_none]
      constructor
      · intro hsome
        have hmem := alookup_isSome_iff.1 hsome
        rw [hkeys] at hmem
        have := alookup_isSome_iff.2 (mem_sortedLocKeys.1 hmem)
        rw [hfree] at this
        exact absurd this (by simp)
      · intro hcon
        exact absurd hcon (by simp)
    · rw [addAttenuators] at hok
      dsimp only at hok
      rw [if_neg (by rw [hfree]; simp)] at hok
      simp only [Bind.bind, Except.bind] at hok
      have hkeys := translateGraph_keys hok
      simp only [Option.isSome_some]
      constructor
      · intro _; exact trivial
      · intro _
        refine alookup_isSome_iff.2 ?_
        rw [hkeys]
        refine mem_sortedLocKeys.2 ?_
        simp only [List.map_append, List.map_cons, List.map_nil, List.mem_append,
          List.mem_singleton]
        exact Or.inr trivial
  · intro pol n hpol hfree hentry
    subst hpol
    rw [addAttenuators]
    dsimp only
    rw [if_neg (by rw [hfree]; simp), hentry]

/-- The output of the C7 example: the attenuated and translated C6 graph
under the deny-all policy. -/
def c7Map : CompartmentMap Unit :=
  ⟨[], exApp, "./index.js",
    [(attenuatorsCompartment,
      ⟨attenuatorsName, attenuatorsName, [], attenuatorsCompartment,
        [], [], [], [], some (), [exB]⟩),
     (exApp, ⟨"app", "app", [], exApp, [], [], [], [], some (), [exB]⟩),
     (exB, ⟨"b", "b", ["b"], exB, [], [], [], [], some (), []⟩)]⟩

/-- Witness for claim C7 at concrete inputs: a graph whose entry claims the
reserved name aborts; the C6 example graph under the deny-all policy yields
a map whose reserved compartment is present; and the added node is the
cleared clone of the entry node. -/
theorem claim_C7_witness :
    attenuateAndTranslate (some denyAllPolicy)
        [(attenuatorsCompartment, exNodeApp)] exApp "./index.js" []
      = .error .reservedNameCollision
    ∧ ((alookup attenuatorsCompartment c7Map.compartments).isSome
        ↔ (some denyAllPolicy).isSome)
    ∧ addAttenuators (some denyAllPolicy) c6Graph exApp
        = .ok (c6Graph ++ [(attenuatorsCompartment,
          { exNodeApp with
            externalAliases := [],
            label := attenuatorsName,
            name := attenuatorsName })]) :=
  ⟨(claim_C7 (some denyAllPolicy) [(attenuatorsCompartment, exNodeApp)] exApp
      "./index.js" []).1 denyAllPolicy rfl rfl,
   (claim_C7 (some denyAllPolicy) c6Graph exApp "./index.js" []).2.1 c7Map rfl rfl,
   (claim_C7 (some denyAllPolicy) c6Graph exApp "./index.js" []).2.2 denyAllPolicy
      exNodeApp rfl rfl rfl⟩

/-- Success of the attenuate-and-translate tail fixes the tags to the
conditions it was given. -/
theorem attenuateAndTranslate_tags {F : Type _} {policy : Option (Policy F)} {g : Graph}
    {loc : Loc} {spec : String} {conds : List String} {m : CompartmentMap F}
    (h : attenuateAndTranslate policy g loc spec conds = .ok m) : m.tags = conds := by
  rw [attenuateAndTranslate] at h
  rcases ha : addAttenuators policy g loc with e | g2
  · rw [ha] at h; exact absurd h (by simp [Bind.bind, Except.bind])
  · rw [ha] at h
    simp only [Bind.bind, Except.bind] at h
    exact (translateGraph_ok_parts h).1

/-- The entry descriptor of the minimal pipeline example. -/
def exEntryDescriptor : Descriptor := { emptyDescriptor with name := "app" }

/-- The reader of the minimal pipeline example: one manifest at the entry. -/
def exEntryReader : ReadDescriptorFn :=
  fun l => if l = exApp then some exEntryDescriptor else none

/-- Counterexample for claim C4 at an explicit input: with caller-supplied
conditions `∅`, the emitted `tags` is `[]`, not the claimed union of the
caller set with the two fixed default tags and the product tag (the set
`conditionsWithDefaults []`): `graphPackages` adds those tags only to its
own local copy (`conditions = new Set(conditions || [])`), so they never
reach the emitted map. -/
theorem claim_C4_counterexample :
    Except.map (fun (m : CompartmentMap Unit) => m.tags)
      (compartmentMapForNodeModules 3 exEntryReader id emptyInfer noSearch exApp []
        none "./index.js" (defaultMapOptions Unit))
      = .ok []
    ∧ ([] : List String) ≠ conditionsWithDefaults [] :=
  ⟨rfl, by decide⟩

/-- Claim C4, amended: the `tags` array of the emitted compartment map
equals the caller-supplied condition set (deduplicated, in insertion
order), not its extension by the implicit tags: the fixed default tags and
the product tag are added during resolution only to `graphPackages`' local
copy of the set, which affects export resolution but never the emitted
`tags`. -/
theorem claim_C4 {F : Type _} (fuel : Nat) (maybeReadDescriptor : ReadDescriptorFn)
    (canonical : CanonicalFn) (inferExportsAndAliases : InferExportsFn)
    (searchDescriptor : SearchDescriptorFn) (packageLocation : Loc)
    (conditionsOption : List String) (packageDescriptor : Option Descriptor)
    (moduleSpecifier : String) (options : MapOptions F) {m : CompartmentMap F}
    (hok : compartmentMapForNodeModules fuel maybeReadDescriptor canonical
      inferExportsAndAliases searchDescriptor packageLocation conditionsOption
      packageDescriptor moduleSpecifier options = .ok m) :
    m.tags = jsDedup conditionsOption := by
  rw [compartmentMapForNodeModules] at hok
  rcases hgp : graphPackages fuel maybeReadDescriptor canonical inferExportsAndAliases
      searchDescriptor packageLocation (jsDedup conditionsOption) packageDescriptor
      (options.dev || (jsDedup conditionsOption).contains "development")
      options.commonDependencies (makeLanguageOptions options) options.strict
      with e | g
  · rw [hgp] at hok; exact absurd hok (by simp [Bind.bind, Except.bind])
  · rw [hgp] at hok
    simp only [Bind.bind, Except.bind] at hok
    exact attenuateAndTranslate_tags hok

/-- Witness for the amended claim C4 at the minimal pipeline example. -/
theorem claim_C4_witness :
    compartmentMapForNodeModules 3 exEntryReader id emptyInfer noSearch exApp []
        none "./index.js" (defaultMapOptions Unit)
      = .ok (⟨[], exApp, "./index.js",
          [(exApp, ⟨"app", "app", [], exApp, [], [("app", ⟨exApp⟩)],
            [("mjs", "mjs"), ("cjs", "cjs"), ("json", "json"), ("text", "text"),
              ("bytes", "bytes"), ("js", "cjs")], [], none, []⟩)]⟩ : CompartmentMap Unit)
    ∧ (⟨[], exApp, "./index.js",
          [(exApp, ⟨"app", "app", [], exApp, [], [("app", ⟨exApp⟩)],
            [("mjs", "mjs"), ("cjs", "cjs"), ("json", "json"), ("text", "text"),
              ("bytes", "bytes"), ("js", "cjs")], [], none, []⟩)]⟩
        : CompartmentMap Unit).tags = jsDedup [] :=
  ⟨rfl,
    claim_C4 3 exEntryReader id emptyInfer noSearch exApp [] none "./index.js"
      (defaultMapOptions Unit) rfl⟩

/-- Counterexample for claim C8 at an explicit input: a missing manifest at
the entry package is surfaced as a thrown error by `graphPackages`, so the
manifest-absence of the entry package is not absorbed. -/
theorem claim_C8_counterexample :
    graphPackages 3 (fun _ => none) id emptyInfer noSearch ["app"] [] none false []
      (makeLanguageOptions (defaultMapOptions Unit)) false
      = .error (.cannotFindEntryPackageJson ["app"]) := rfl

/-- Claim C8, amended: the Manifest Reader signals an absent manifest by
returning `undefined` rather than throwing (in the embedding, the reader is
`Option`-valued and total), and for dependency packages the absence is
absorbed locally — outside strict mode a dependency whose manifest cannot
be found anywhere is silently skipped, leaving no edge — but for the entry
package a missing manifest is a fatal error naming the entry location. -/
theorem claim_C8 :
    (∀ (fuel : Nat) (maybeReadDescriptor : ReadDescriptorFn) (canonical : CanonicalFn)
        (inferExportsAndAliases : InferExportsFn) (searchDescriptor : SearchDescriptorFn)
        (packageLocation : Loc) (conditions : List String) (dev : Bool)
        (commonDependencies : List (String × String)) (lo : LanguageOptions)
        (strict : Bool),
      maybeReadDescriptor packageLocation = none →
      graphPackages fuel maybeReadDescriptor canonical inferExportsAndAliases
        searchDescriptor packageLocation conditions none dev commonDependencies lo strict
        = .error (.cannotFindEntryPackageJson packageLocation))
    ∧ (∀ (ctx : Ctx) (fuel : Nat) (st : GraphState)
        (dependencyLocations : List (String × Loc)) (packageLocation : Loc)
        (name : String) (childLogicalPath : List String) (optional : Bool),
      findPackage ctx.readDescriptor ctx.canonical packageLocation name = none →
      ctx.strict = false →
      gatherDependency ctx fuel st dependencyLocations packageLocation name
        childLogicalPath optional = .ok (st, dependencyLocations)) := by
  constructor
  · intro fuel maybeReadDescriptor canonical inferEA searchD packageLocation conds dev
      commonDeps lo strict hmr
    rw [graphPackages]
    dsimp only
    rw [hmr]
  · intro ctx fuel st depLocs packageLocation name clp optional hfind hstrict
    rw [gatherDependency, gatherDependencyStep, hfind]
    simp [hstrict]

/-- Witness for the amended claim C8 at concrete inputs: the empty
filesystem has no entry manifest (fatal), and a dependency with no manifest
anywhere is absorbed in non-strict mode. -/
theorem claim_C8_witness :
    graphPackages 4 (fun _ => none) id emptyInfer noSearch ["other"] [] none false []
      (makeLanguageOptions (defaultMapOptions Unit)) false
      = .error (.cannotFindEntryPackageJson ["other"])
    ∧ gatherDependency (plainCtx (fun _ => none) false) 3 ⟨[], []⟩ [] ["p"] "q" ["q"] false
      = .ok (⟨[], []⟩, []) :=
  ⟨claim_C8.1 4 (fun _ => none) id emptyInfer noSearch ["other"] [] false []
      (makeLanguageOptions (defaultMapOptions Unit)) false rfl,
    claim_C8.2 (plainCtx (fun _ => none) false) 3 ⟨[], []⟩ [] ["p"] "q" ["q"] false rfl rfl⟩

/-! ### Lemmas about the graph builder: helpers -/

theorem alookup_append_of_isSome {α β : Type _} [DecidableEq α] {k : α} :
    ∀ {l : List (α × β)} (l2 : List (α × β)), (alookup k l).isSome = true →
      alookup k (l ++ l2) = alookup k l
  | [], _, h => by simp [alookup] at h
  | (k', v) :: rest, l2, h => by
    by_cases hk : k' = k
    · simp [alookup, if_pos hk]
    · rw [alookup, if_neg hk] at h
      rw [List.cons_append, alookup, if_neg hk, alookup, if_neg hk,
        alookup_append_of_isSome l2 h]

theorem alookup_append_of_none {α β : Type _} [DecidableEq α] {k : α} :
    ∀ {l : List (α × β)} (l2 : List (α × β)), alookup k l = none →
      alookup k (l ++ l2) = alookup k l2
  | [], _, _ => rfl
  | (k', v) :: rest, l2, h => by
    by_cases hk : k' = k
    · rw [alookup, if_pos hk] at h
      exact absurd h (by simp)
    · rw [alookup, if_neg hk] at h
      rw [List.cons_append, alookup, if_neg hk, alookup_append_of_none l2 h]

theorem nodup_append_singleton {α : Type _} {l : List α} {a : α}
    (h : l.Nodup) (ha : a ∉ l) : (l ++ [a]).Nodup := by
  refine List.Nodup.append h (List.nodup_singleton a) ?_
  intro x hx hxa
  simp only [List.mem_singleton] at hxa
  subst hxa
  exact ha hx

theorem isSome_alookup_jsInsert {α β : Type _} [DecidableEq α] {k k' : α} (v : β)
    {l : List (α × β)} (h : (alookup k l).isSome = true) :
    (alookup k (jsInsert k' v l)).isSome = true := by
  by_cases hk : k' = k
  · subst hk
    rw [alookup_jsInsert_self]
    rfl
  · rw [alookup_jsInsert_ne v hk]
    exact h

theorem filter_length_mono {α : Type _} (p q : α → Bool)
    (h : ∀ a, p a = true → q a = true) :
    ∀ l : List α, (l.filter p).length ≤ (l.filter q).length
  | [] => Nat.le_refl 0
  | a :: rest => by
    rcases hp : p a with _ | _
    · rcases hq : q a with _ | _
      · simpa [List.filter_cons, hp, hq] using filter_length_mono p q h rest
      · simp only [List.filter_cons, hp, hq, if_neg, if_pos, List.length_cons]
        calc ((rest.filter p).length)
            ≤ (rest.filter q).length := filter_length_mono p q h rest
          _ ≤ (rest.filter q).length + 1 := Nat.le_succ _
    · rw [List.filter_cons, List.filter_cons, hp, h a hp]
      simpa using Nat.succ_le_succ (filter_length_mono p q h rest)

theorem filter_length_lt {α : Type _} (p q : α → Bool)
    (h : ∀ a, p a = true → q a = true) {a0 : α} :
    ∀ {l : List α}, a0 ∈ l → p a0 = false → q a0 = true →
      (l.filter p).length < (l.filter q).length
  | [], hmem, _, _ => absurd hmem (by simp)
  | a :: rest, hmem, hp0, hq0 => by
    by_cases hcase : a = a0
    · subst hcase
      rw [List.filter_cons, List.filter_cons, hp0, hq0]
      simp only [if_neg, if_pos, List.length_cons]
      exact Nat.lt_succ_of_le (filter_length_mono p q h rest)
    · have hrest : a0 ∈ rest := by
        rcases List.mem_cons.1 hmem with he | he
        · exact absurd he.symm hcase
        · exact he
      rcases hp : p a with _ | _
      · rcases hq : q a with _ | _
        · simpa [List.filter_cons, hp, hq] using filter_length_lt p q h hrest hp0 hq0
        · simp only [List.filter_cons, hp, hq, if_neg, if_pos, List.length_cons]
          exact Nat.lt_succ_of_lt (filter_length_lt p q h hrest hp0 hq0)
      · rw [List.filter_cons, List.filter_cons, hp, h a hp]
        simpa using Nat.succ_lt_succ (filter_length_lt p q h hrest hp0 hq0)

/-- The number of domain locations not yet present in the graph: the
decreasing measure of the graph build. -/
def remCap (dom : List Loc) (st : GraphState) : Nat :=
  (dom.filter (fun l => !(alookup l st.graph).isSome)).length

theorem remCap_mono {dom : List Loc} {st st' : GraphState}
    (h : ∀ k, (alookup k st.graph).isSome = true → (alookup k st'.graph).isSome = true) :
    remCap dom st' ≤ remCap dom st := by
  refine filter_length_mono _ _ ?_ dom
  intro a ha
  simp only [Bool.not_eq_true'] at ha ⊢
  rcases hcase : (alookup a st.graph).isSome with _ | _
  · rfl
  · rw [h a hcase] at ha
    exact absurd ha (by simp)

theorem remCap_register {dom : List Loc} {st : GraphState} {loc : Loc}
    (hmem : loc ∈ dom) (habs : (alookup loc st.graph).isSome = false) :
    remCap dom { st with graph := st.graph ++ [(loc, stubNode)] } < remCap dom st := by
  refine filter_length_lt _ _ ?_ hmem ?_ ?_
  · intro a ha
    simp only [Bool.not_eq_true'] at ha ⊢
    rcases hcase : (alookup a st.graph).isSome with _ | _
    · rfl
    · rw [alookup_append_of_isSome [(loc, stubNode)] hcase] at ha
      rw [hcase] at ha
      exact absurd ha (by simp)
  · simp only [Bool.not_eq_true']
    have : alookup loc st.graph = none := by
      rcases hl : alookup loc st.graph with _ | v
      · rfl
      · rw [hl] at habs; exact absurd habs (by simp)
    rw [alookup_append_of_none [(loc, stubNode)] this]
    rw [alookup, if_pos rfl]
    rfl
  · simp only [Bool.not_eq_true']
    rcases hl : alookup loc st.graph with _ | v
    · rfl
    · rw [hl] at habs; exact absurd habs (by simp)

theorem remCap_le_length (dom : List Loc) (st : GraphState) :
    remCap dom st ≤ dom.length :=
  List.length_filter_le _ _

theorem inferParsers_ne_fuel (d : Descriptor) (loc : Loc) (lo : LanguageOptions) :
    inferParsers d loc lo ≠ .error .fuelExhausted := by
  rw [inferParsers]
  split_ifs <;> simp

theorem rewriteCommonAliases_ne_fuel (loc : Loc) :
    ∀ (l : List (String × CommonDescriptor)) (dl : List (String × Loc)),
      rewriteCommonAliases loc l dl ≠ .error .fuelExhausted
  | [], dl => by rw [rewriteCommonAliases]; simp
  | (name, cd) :: rest, dl => by
    rw [rewriteCommonAliases]
    rcases ha : alookup name dl with _ | target
    · simp
    · exact rewriteCommonAliases_ne_fuel loc rest (jsInsert cd.aliasName target dl)

theorem rewriteInternalAliases_ne_fuel (loc : Loc) (ia : List (String × String)) :
    ∀ (ks : List String) (dl : List (String × Loc)),
      rewriteInternalAliases loc ia ks dl ≠ .error .fuelExhausted
  | [], dl => by rw [rewriteInternalAliases]; simp
  | s :: rest, dl => by
    rw [rewriteInternalAliases]
    rcases ha : alookup s ia with _ | target
    · exact rewriteInternalAliases_ne_fuel loc ia rest dl
    · dsimp only
      by_cases h1 : (s.startsWith "./" || s = ".") = true
      · rw [if_pos h1]
        exact rewriteInternalAliases_ne_fuel loc ia rest dl
      · rw [if_neg h1]
        by_cases h2 : (target.startsWith "./" || target = ".") = true
        · rw [if_pos h2]
          exact rewriteInternalAliases_ne_fuel loc ia rest dl
        · rw [if_neg h2]
          rcases ht : alookup target dl with _ | tl
          · simp
          · exact rewriteInternalAliases_ne_fuel loc ia rest (jsInsert s tl dl)

/-- Relational invariant transport along `childrenLoop`. -/
theorem childrenLoop_rel
    (step : GraphState → List (String × Loc) → String → Except Err (GraphState × List (String × Loc)))
    (P : GraphState → GraphState → Prop)
    (hrefl : ∀ st, P st st)
    (htrans : ∀ a b c, P a b → P b c → P a c)
    (hstep : ∀ st dl n st' dl', step st dl n = .ok (st', dl') → P st st') :
    ∀ (names : List String) (st : GraphState) (dl : List (String × Loc))
      (st' : GraphState) (dl' : List (String × Loc)),
      childrenLoop step st dl names = .ok (st', dl') → P st st'
  | [], st, dl, st', dl', h => by
    rw [childrenLoop] at h
    injection h with h
    injection h with h1 h2
    subst h1
    exact hrefl st
  | n :: rest, st, dl, st', dl', h => by
    rw [childrenLoop] at h
    rcases hs : step st dl n with e | p1
    · rw [hs] at h; exact absurd h (by simp [Bind.bind, Except.bind])
    · rw [hs] at h
      rcases p1 with ⟨st1, dl1⟩
      simp only [Bind.bind, Except.bind] at h
      exact htrans _ _ _ (hstep _ _ _ _ _ hs)
        (childrenLoop_rel step P hrefl htrans hstep rest st1 dl1 st' dl' h)

/-- Fuel-exhaustion safety transport along `childrenLoop`. -/
theorem childrenLoop_safe
    (step : GraphState → List (String × Loc) → String → Except Err (GraphState × List (String × Loc)))
    (base : GraphState)
    (hmono : ∀ st dl n st' dl', step st dl n = .ok (st', dl') →
      ∀ k, (alookup k st.graph).isSome = true → (alookup k st'.graph).isSome = true)
    (hsafe : ∀ st dl n,
      (∀ k, (alookup k base.graph).isSome = true → (alookup k st.graph).isSome = true) →
      step st dl n ≠ .error .fuelExhausted) :
    ∀ (names : List String) (st : GraphState) (dl : List (String × Loc)),
      (∀ k, (alookup k base.graph).isSome = true → (alookup k st.graph).isSome = true) →
      childrenLoop step st dl names ≠ .error .fuelExhausted
  | [], st, dl, _ => by rw [childrenLoop]; simp
  | n :: rest, st, dl, hst => by
    rw [childrenLoop]
    rcases hs : step st dl n with e | p1
    · intro hcon
      simp only [Bind.bind, Except.bind] at hcon
      injection hcon with hcon
      exact hsafe st dl n hst (by rw [hs, hcon])
    · rcases p1 with ⟨st1, dl1⟩
      simp only [Bind.bind, Except.bind]
      refine childrenLoop_safe step base hmono hsafe rest st1 dl1 ?_
      intro k hk
      exact hmono st dl n st1 dl1 hs k (hst k hk)

theorem except_bind_ok {ε α β : Type _} {x : Except ε α} {f : α → Except ε β} {b : β}
    (h : x >>= f = .ok b) : ∃ a, x = .ok a ∧ f a = .ok b := by
  rcases x with e | a
  · simp [Bind.bind, Except.bind] at h
  · exact ⟨a, rfl, by simpa [Bind.bind, Except.bind] using h⟩

theorem except_bind_ne {ε α β : Type _} {x : Except ε α} {f : α → Except ε β} {e0 : ε}
    (hx : x ≠ .error e0) (hf : ∀ a, x = .ok a → f a ≠ .error e0) :
    x >>= f ≠ .error e0 := by
  rcases hx2 : x with e | a
  · intro hcon
    simp only [Bind.bind, Except.bind] at hcon
    injection hcon with hcon
    exact hx (by rw [hx2, hcon])
  · simpa [Bind.bind, Except.bind] using hf a hx2

/-- Monotonicity and key discipline of one gather step, given the same for
the recursive call. -/
theorem gatherDependencyStep_facts {ctx : Ctx}
    {recurse : GraphState → String → Loc → Descriptor → List String → Except Err GraphState}
    (hrec : ∀ (st : GraphState) (name : String) (l2 : Loc) (desc : Descriptor)
      (lp : List String) (st' : GraphState), recurse st name l2 desc lp = .ok st' →
      (∀ k, (alookup k st.graph).isSome = true → (alookup k st'.graph).isSome = true)
      ∧ ((st.graph.map Prod.fst).Nodup → (st'.graph.map Prod.fst).Nodup))
    {st : GraphState} {dl : List (String × Loc)} {ploc : Loc} {n : String}
    {clp : List String} {opt : Bool} {st' : GraphState} {dl' : List (String × Loc)}
    (h : gatherDependencyStep recurse ctx st dl ploc n clp opt = .ok (st', dl')) :
    (∀ k, (alookup k st.graph).isSome = true → (alookup k st'.graph).isSome = true)
    ∧ ((st.graph.map Prod.fst).Nodup → (st'.graph.map Prod.fst).Nodup) := by
  rw [gatherDependencyStep] at h
  rcases hf : findPackage ctx.readDescriptor ctx.canonical ploc n with _ | p
  · rw [hf] at h
    by_cases hopt : (opt || !ctx.strict) = true
    · rw [if_pos hopt] at h
      injection h with h
      injection h with h1 h2
      subst h1
      exact ⟨fun k hk => hk, fun hn => hn⟩
    · rw [if_neg hopt] at h
      exact absurd h (by simp)
  · rw [hf] at h
    rcases p with ⟨l2, d2⟩
    dsimp only at h
    rcases hr : recurse (if pathLt clp (alookup l2 st.preferred) = true then
        { st with preferred := jsInsert l2 clp st.preferred } else st) n l2 d2 clp
        with e | stg
    · rw [hr] at h
      exact absurd h (by simp [Except.map])
    · rw [hr] at h
      simp only [Except.map] at h
      injection h with h
      injection h with h1 h2
      subst h1
      have hfacts := hrec _ n l2 d2 clp _ hr
      by_cases hc : pathLt clp (alookup l2 st.preferred) = true
      · rw [if_pos hc] at hfacts
        exact hfacts
      · rw [if_neg hc] at hfacts
        exact hfacts

/-- Monotonicity of `graphPackage`: a successful run only adds graph keys,
preserves key uniqueness, and leaves the visited location present. -/
theorem graphPackage_mono (ctx : Ctx) :
    ∀ (fuel : Nat) (st : GraphState) (name : String) (loc : Loc) (desc : Descriptor)
      (dev : Bool) (lp : List String) (st' : GraphState),
      graphPackage ctx fuel st name loc desc dev lp = .ok st' →
      (∀ k, (alookup k st.graph).isSome = true → (alookup k st'.graph).isSome = true)
      ∧ ((st.graph.map Prod.fst).Nodup → (st'.graph.map Prod.fst).Nodup)
      ∧ (alookup loc st'.graph).isSome = true
  | 0, st, name, loc, desc, dev, lp, st', h => by
    rw [graphPackage] at h
    exact absurd h (by simp)
  | fuel + 1, st, name, loc, desc, dev, lp, st', h => by
    rw [graphPackage] at h
    by_cases hpres : (alookup loc st.graph).isSome = true
    · rw [if_pos hpres] at h
      injection h with h
      subst h
      exact ⟨fun k hk => hk, fun hn => hn, hpres⟩
    · rw [if_neg hpres] at h
      rcases except_bind_ok h with ⟨parsers, hp, h⟩
      rcases except_bind_ok h with ⟨p2, hcl, h⟩
      rcases p2 with ⟨st2, depLocs⟩
      rcases except_bind_ok h with ⟨dl2, hrc, h⟩
      rcases except_bind_ok h with ⟨dl3, hri, h⟩
      injection h with h
      have hstep : ∀ (stc : GraphState) (dlc : List (String × Loc)) (nc : String)
          (st'' : GraphState) (dl'' : List (String × Loc)),
          gatherDependencyStep
            (fun stg n2 l2 d2 p2 => graphPackage ctx fuel stg n2 l2 d2 false p2)
            ctx stc dlc loc nc (lp ++ [nc]) ((optionalsOf desc).contains nc)
            = .ok (st'', dl'') →
          (∀ k, (alookup k stc.graph).isSome = true → (alookup k st''.graph).isSome = true)
          ∧ ((stc.graph.map Prod.fst).Nodup → (st''.graph.map Prod.fst).Nodup) := by
        intro stc dlc nc st'' dl'' hs
        refine gatherDependencyStep_facts ?_ hs
        intro sta na la da lpa sta' ha
        exact ⟨(graphPackage_mono ctx fuel sta na la da false lpa sta' ha).1,
          (graphPackage_mono ctx fuel sta na la da false lpa sta' ha).2.1⟩
      have hchild := childrenLoop_rel _
        (fun a b => (∀ k, (alookup k a.graph).isSome = true
            → (alookup k b.graph).isSome = true)
          ∧ ((a.graph.map Prod.fst).Nodup → (b.graph.map Prod.fst).Nodup))
        (fun a => ⟨fun k hk => hk, fun hn => hn⟩)
        (fun a b c hab hbc => ⟨fun k hk => hbc.1 k (hab.1 k hk),
          fun hn => hbc.2 (hab.2 hn)⟩)
        (fun stc dlc nc st'' dl'' hs => hstep stc dlc nc st'' dl'' hs)
        _ _ _ _ _ hcl
      have hnone : alookup loc st.graph = none := by
        rcases hl : alookup loc st.graph with _ | v
        · rfl
        · exact absurd (by rw [hl]; rfl) hpres
      have hst1mono : ∀ k, (alookup k st.graph).isSome = true →
          (alookup k (st.graph ++ [(loc, stubNode)])).isSome = true := by
        intro k hk
        rw [alookup_append_of_isSome [(loc, stubNode)] hk]
        exact hk
      have hst1nodup : (st.graph.map Prod.fst).Nodup →
          ((st.graph ++ [(loc, stubNode)]).map Prod.fst).Nodup := by
        intro hn
        rw [List.map_append]
        exact nodup_append_singleton hn (fun hmem =>
          (alookup_eq_none_iff.1 hnone) hmem)
      subst h
      refine ⟨?_, ?_, ?_⟩
      · intro k hk
        exact isSome_alookup_jsInsert _ (hchild.1 k (hst1mono k hk))
      · intro hn
        exact nodup_map_fst_jsInsert _ (hchild.2 (hst1nodup hn))
      · rw [alookup_jsInsert_self]
        rfl

/-- Fuel sufficiency for `graphPackage`: over a finite manifest domain
`dom` (every location with a manifest is in `dom`), a fuel budget exceeding
the number of not-yet-visited domain locations can never be exhausted —
this is the termination argument: registering a location before recursing
strictly shrinks the remaining capacity, and a location already present
returns immediately, so dependency cycles cannot consume fuel. -/
theorem graphPackage_safe (ctx : Ctx) (dom : List Loc)
    (hdom : ∀ l, (ctx.readDescriptor l).isSome = true → l ∈ dom) :
    ∀ (fuel : Nat) (st : GraphState) (name : String) (loc : Loc) (desc : Descriptor)
      (dev : Bool) (lp : List String),
      ((alookup loc st.graph).isSome = true ∧ 1 ≤ fuel
        ∨ (alookup loc st.graph).isSome = false ∧ loc ∈ dom ∧ remCap dom st + 1 ≤ fuel
        ∨ remCap dom st + 2 ≤ fuel) →
      graphPackage ctx fuel st name loc desc dev lp ≠ .error .fuelExhausted
  | 0, st, name, loc, desc, dev, lp, hreq => by
    rcases hreq with ⟨_, h1⟩ | ⟨_, _, h1⟩ | h1 <;> omega
  | fuel + 1, st, name, loc, desc, dev, lp, hreq => by
    rw [graphPackage]
    by_cases hpres : (alookup loc st.graph).isSome = true
    · rw [if_pos hpres]
      simp
    · rw [if_neg hpres]
      have hst1mono : ∀ k, (alookup k st.graph).isSome = true →
          (alookup k (st.graph ++ [(loc, stubNode)])).isSome = true := by
        intro k hk
        rw [alookup_append_of_isSome [(loc, stubNode)] hk]
        exact hk
      have habs : (alookup loc st.graph).isSome = false := by
        rcases hl : (alookup loc st.graph).isSome with _ | _
        · rfl
        · exact absurd hl hpres
      have hfuel1 : remCap dom { st with graph := st.graph ++ [(loc, stubNode)] } + 1
          ≤ fuel := by
        rcases hreq with ⟨hp, _⟩ | ⟨_, hmem, h1⟩ | h1
        · exact absurd hp hpres
        · have := remCap_register hmem habs
          omega
        · have : remCap dom { st with graph := st.graph ++ [(loc, stubNode)] }
              ≤ remCap dom st := remCap_mono hst1mono
          omega
      refine except_bind_ne (inferParsers_ne_fuel desc loc ctx.languageOptions) ?_
      intro parsers hp
      refine except_bind_ne ?_ ?_
      · -- the children loop cannot exhaust fuel
        refine childrenLoop_safe _ { st with graph := st.graph ++ [(loc, stubNode)] }
          ?_ ?_ _ _ _ (fun k hk => hk)
        · intro stc dlc nc st'' dl'' hs
          refine (gatherDependencyStep_facts ?_ hs).1
          intro sta na la da lpa sta' ha
          exact ⟨(graphPackage_mono ctx fuel sta na la da false lpa sta' ha).1,
            (graphPackage_mono ctx fuel sta na la da false lpa sta' ha).2.1⟩
        · intro stc dlc nc hsup
          rw [gatherDependencyStep]
          rcases hf : findPackage ctx.readDescriptor ctx.canonical loc nc with _ | p
          · by_cases hopt : (((optionalsOf desc).contains nc) || !ctx.strict) = true
            · rw [if_pos hopt]
              simp
            · rw [if_neg hopt]
              simp
          · rcases p with ⟨l2, d2⟩
            dsimp only
            have hl2dom : l2 ∈ dom := by
              refine hdom l2 ?_
              rw [findPackage_found hf]
              rfl
            have hcap : remCap dom stc
                ≤ remCap dom { st with graph := st.graph ++ [(loc, stubNode)] } :=
              remCap_mono hsup
            intro hcon
            have hmap : graphPackage ctx fuel
                (if pathLt (lp ++ [nc]) (alookup l2 stc.preferred) = true then
                  { stc with preferred := jsInsert l2 (lp ++ [nc]) stc.preferred }
                else stc) nc l2 d2 false (lp ++ [nc]) = .error .fuelExhausted := by
              rcases hgp : graphPackage ctx fuel
                  (if pathLt (lp ++ [nc]) (alookup l2 stc.preferred) = true then
                    { stc with preferred := jsInsert l2 (lp ++ [nc]) stc.preferred }
                  else stc) nc l2 d2 false (lp ++ [nc]) with e | stg
              · rw [hgp] at hcon
                simp only [Except.map] at hcon
                injection hcon with hcon
                rw [hcon]
              · rw [hgp] at hcon
                exact absurd hcon (by simp [Except.map])
            have hgraphs : (if pathLt (lp ++ [nc]) (alookup l2 stc.preferred) = true then
                { stc with preferred := jsInsert l2 (lp ++ [nc]) stc.preferred }
              else stc).graph = stc.graph := by
              by_cases hc : pathLt (lp ++ [nc]) (alookup l2 stc.preferred) = true
              · rw [if_pos hc]
              · rw [if_neg hc]
            refine graphPackage_safe ctx dom hdom fuel _ nc l2 d2 false (lp ++ [nc])
              ?_ hmap
            by_cases hl2 : (alookup l2 stc.graph).isSome = true
            · exact Or.inl ⟨by rw [hgraphs]; exact hl2, by omega⟩
            · refine Or.inr (Or.inl ⟨?_, hl2dom, ?_⟩)
              · rw [hgraphs]
                rcases hx : (alookup l2 stc.graph).isSome with _ | _
                · rfl
                · exact absurd hx hl2
              · have : remCap dom (if pathLt (lp ++ [nc]) (alookup l2 stc.preferred)
                      = true then
                    { stc with preferred := jsInsert l2 (lp ++ [nc]) stc.preferred }
                  else stc) = remCap dom stc := by
                  rw [remCap, remCap, hgraphs]
                omega
      · rintro ⟨st2, depLocs⟩ hcl
        refine except_bind_ne (rewriteCommonAliases_ne_fuel loc
          ctx.commonDependencyDescriptors depLocs) ?_
        intro dl2 hrc
        refine except_bind_ne (rewriteInternalAliases_ne_fuel loc _ _ dl2) ?_
        intro dl3 hri
        simp

/-- Claim C2: for every dependency layout over a finite manifest domain —
including layouts whose dependency relation is cyclic — `graphPackage`
terminates and gives every reachable location exactly one node: (first
conjunct) a call for a location already present in the graph returns
immediately with the state untouched, neither re-entering nor recreating
the node; (second conjunct) a fuel budget of the domain size plus two is
never exhausted, for any state, location and descriptor, which is
termination: a node is registered at its location before the recursion into
its dependencies, so a cycle back to the location lands in the first
conjunct instead of recursing again; (third conjunct) a successful run
keeps the graph keys duplicate-free — each location holds exactly one
node — and has registered the visited location. -/
theorem claim_C2 (ctx : Ctx) (dom : List Loc)
    (hdom : ∀ l, (ctx.readDescriptor l).isSome = true → l ∈ dom) :
    (∀ (fuel : Nat) (st : GraphState) (name : String) (loc : Loc) (desc : Descriptor)
      (dev : Bool) (lp : List String), (alookup loc st.graph).isSome = true →
      graphPackage ctx (fuel + 1) st name loc desc dev lp = .ok st)
    ∧ (∀ (fuel : Nat) (st : GraphState) (name : String) (loc : Loc) (desc : Descriptor)
        (dev : Bool) (lp : List String), dom.length + 2 ≤ fuel →
        graphPackage ctx fuel st name loc desc dev lp ≠ .error .fuelExhausted)
    ∧ (∀ (fuel : Nat) (st : GraphState) (name : String) (loc : Loc) (desc : Descriptor)
        (dev : Bool) (lp : List String) (st' : GraphState),
        graphPackage ctx fuel st name loc desc dev lp = .ok st' →
        ((st.graph.map Prod.fst).Nodup → (st'.graph.map Prod.fst).Nodup)
        ∧ (alookup loc st'.graph).isSome = true) := by
  refine ⟨?_, ?_, ?_⟩
  · intro fuel st name loc desc dev lp hpres
    rw [graphPackage, if_pos hpres]
  · intro fuel st name loc desc dev lp hfuel
    refine graphPackage_safe ctx dom hdom fuel st name loc desc dev lp
      (Or.inr (Or.inr ?_))
    have := remCap_le_length dom st
    omega
  · intro fuel st name loc desc dev lp st' h
    exact ⟨(graphPackage_mono ctx fuel st name loc desc dev lp st' h).2.1,
      (graphPackage_mono ctx fuel st name loc desc dev lp st' h).2.2⟩

/-- A cyclic on-disk layout: the entry depends on `a`, `a` depends on `b`,
and `b` depends back on `a`. -/
def cycleFs : List (Loc × Descriptor) :=
  [(["app"], { emptyDescriptor with name := "app", dependencies := [("a", "1.0.0")] }),
   (["app", "node_modules", "a"],
     { emptyDescriptor with name := "a", dependencies := [("b", "1.0.0")] }),
   (["app", "node_modules", "b"],
     { emptyDescriptor with name := "b", dependencies := [("a", "1.0.0")] })]

/-- The context over the cyclic layout, in strict mode. -/
def cycleCtx : Ctx := plainCtx (fun l => alookup l cycleFs) true

/-- The parser table the default language options give a package without a
`type` field. -/
def cycleParsers : List (String × String) :=
  [("mjs", "mjs"), ("cjs", "cjs"), ("json", "json"), ("text", "text"),
    ("bytes", "bytes"), ("js", "cjs")]

/-- The graph state after resolving the cyclic layout: each of the three
locations appears exactly once, with `a` and `b` pointing at each other. -/
def cycleFinal : GraphState :=
  ⟨[(["app"],
      ⟨"app", [], "app", false, [], [], [("a", ["app", "node_modules", "a"])], [],
        cycleParsers⟩),
    (["app", "node_modules", "a"],
      ⟨"a", ["a"], "a", false, [], [], [("b", ["app", "node_modules", "b"])], [],
        cycleParsers⟩),
    (["app", "node_modules", "b"],
      ⟨"b", ["a", "b"], "b", false, [], [], [("a", ["app", "node_modules", "a"])], [],
        cycleParsers⟩)],
   [(["app", "node_modules", "a"], ["a"]), (["app", "node_modules", "b"], ["a", "b"])]⟩

/-- Witness for claim C2 at the cyclic layout: the bounded fuel budget is
not exhausted; a call on a state that already contains the location is an
immediate no-op; and the completed run (shown by evaluation to produce
`cycleFinal`) has duplicate-free keys with the entry registered. -/
theorem claim_C2_witness :
    ((cycleFs.map Prod.fst).length + 2 ≤ 5
      ∧ graphPackage cycleCtx 5 ⟨[], []⟩ "app" ["app"]
          { emptyDescriptor with name := "app", dependencies := [("a", "1.0.0")] }
          false [] ≠ .error .fuelExhausted)
    ∧ graphPackage cycleCtx 3 ⟨[(["app"], stubNode)], []⟩ "app" ["app"]
        { emptyDescriptor with name := "app", dependencies := [("a", "1.0.0")] }
        false [] = .ok ⟨[(["app"], stubNode)], []⟩
    ∧ (graphPackage cycleCtx 5 ⟨[], []⟩ "app" ["app"]
          { emptyDescriptor with name := "app", dependencies := [("a", "1.0.0")] }
          false [] = .ok cycleFinal
        ∧ (cycleFinal.graph.map Prod.fst).Nodup
        ∧ (alookup ["app"] cycleFinal.graph).isSome = true) :=
  ⟨⟨by decide,
    (claim_C2 cycleCtx (cycleFs.map Prod.fst)
        (fun l h => alookup_isSome_iff.1 h)).2.1 5 ⟨[], []⟩ "app" ["app"]
      { emptyDescriptor with name := "app", dependencies := [("a", "1.0.0")] }
      false [] (by decide)⟩,
   (claim_C2 cycleCtx (cycleFs.map Prod.fst)
       (fun l h => alookup_isSome_iff.1 h)).1 2 ⟨[(["app"], stubNode)], []⟩ "app"
     ["app"] { emptyDescriptor with name := "app", dependencies := [("a", "1.0.0")] }
     false [] rfl,
   rfl,
   ((claim_C2 cycleCtx (cycleFs.map Prod.fst)
        (fun l h => alookup_isSome_iff.1 h)).2.2 5 ⟨[], []⟩ "app" ["app"]
      { emptyDescriptor with name := "app", dependencies := [("a", "1.0.0")] }
      false [] cycleFinal rfl).1 (by decide),
   ((claim_C2 cycleCtx (cycleFs.map Prod.fst)
        (fun l h => alookup_isSome_iff.1 h)).2.2 5 ⟨[], []⟩ "app" ["app"]
      { emptyDescriptor with name := "app", dependencies := [("a", "1.0.0")] }
      false [] cycleFinal rfl).2⟩

end NodeModules
